import Mathlib

set_option maxHeartbeats 1000000

/-!
Verification development for the haura betree storage engine.

This file embeds, shallowly, the parts of the source tree that the checked
properties are about:

* the NVM leaf node (`betree/src/tree/imp/nvmleaf.rs`): its two-phase state
  machine, serialization (`pack`/`unpack`), size accounting, insertion,
  split and merge;
* the persistent replication cache (`betree/src/replication/mod.rs` and
  `betree/src/replication/lru.rs`): the persistent LRU doubly linked list,
  the hash map of entries, `get`/`prepare_insert().insert`/`remove`;
* the default `migrate` loop of the migration controller
  (`betree/src/migration/mod.rs`).

Machine integers are modelled as `Nat` (with explicit `% 2^w` where overflow
matters), byte strings as `List Nat`, pointer-addressed persistent memory as a
total function `Nat → PlruNode`, and fallible code as `Option`/`Except`
(`none` modelling a Rust panic).  Types that live outside the provided source
files (`StoragePreference`, the atomic preference wrappers, `StorageInfo`) are
modelled from the specification and marked as such in their doc comments.
-/

/-! ## Bytes and keys -/

abbrev Bytes := List Nat

abbrev Key := List Nat

/-- Strict lexicographic order on keys, as the Rust `Ord` instance on byte
slices used by `BTreeMap<CowBytes, _>`. -/
def keyLt (a b : Key) : Prop := List.Lex (· < ·) a b

instance keyLt.decRel : DecidableRel keyLt := fun a b =>
  List.Lex.decidableRel _ a b

theorem keyLt_trans {a b c : Key} (h₁ : keyLt a b) (h₂ : keyLt b c) : keyLt a c := by
  have h : IsTrans (List Nat) (List.Lex (· < ·)) := inferInstance
  exact h.trans a b c h₁ h₂

theorem keyLt_irrefl (a : Key) : ¬ keyLt a a := by
  have h : IsIrrefl (List Nat) (List.Lex (· < ·)) := inferInstance
  exact h.irrefl a

theorem keyLt_asymm {a b : Key} (h : keyLt a b) : ¬ keyLt b a := by
  have h' : IsAsymm (List Nat) (List.Lex (· < ·)) := inferInstance
  exact h'.asymm a b h

theorem keyLt_trichotomy (a b : Key) : keyLt a b ∨ a = b ∨ keyLt b a := by
  have h : IsTrichotomous (List Nat) (List.Lex (· < ·)) := inferInstance
  exact h.trichotomous a b

/-- Little-endian encoding of a `u32` as four bytes. -/
def le32 (n : Nat) : Bytes := [n % 256, n / 256 % 256, n / 65536 % 256, n / 16777216 % 256]

/-- Read a little-endian `u32` at offset `i` (`u32::from_le_bytes` of
`data[i..i+4]`; reads in the source are always in bounds). -/
def readLe32 (d : Bytes) (i : Nat) : Nat :=
  d.getD i 0 + 256 * d.getD (i + 1) 0 + 65536 * d.getD (i + 2) 0
    + 16777216 * d.getD (i + 3) 0

/-! ## Association-list model of `BTreeMap` with byte-string keys -/

/-- `BTreeMap::get` on an association list. -/
def alGet {α : Type} (l : List (Key × α)) (k : Key) : Option α :=
  (l.find? (fun e => decide (e.1 = k))).map (·.2)

/-- `BTreeMap::insert` on a key-sorted association list. -/
def alInsert {α : Type} : List (Key × α) → Key → α → List (Key × α)
  | [], k, v => [(k, v)]
  | (k', v') :: rest, k, v =>
    if k = k' then (k, v) :: rest
    else if keyLt k k' then (k, v) :: (k', v') :: rest
    else (k', v') :: alInsert rest k v

/-- `BTreeMap::remove` on an association list. -/
def alRemove {α : Type} : List (Key × α) → Key → List (Key × α)
  | [], _ => []
  | (k', v') :: rest, k =>
    if k = k' then rest else (k', v') :: alRemove rest k

/-! ## NVM leaf node: data model (`nvmleaf.rs`) -/

def NVMLEAF_METADATA_OFFSET : Nat := 8

def NVMLEAF_HEADER_FIXED_LEN : Nat := 8

def NVMLEAF_PER_KEY_META_LEN : Nat := 12

/-- Per-entry metadata: a `StoragePreference` byte (`KeyInfo` in
`tree/imp/mod.rs`). -/
structure KeyInfo where
  storage_preference : Nat
deriving DecidableEq, Repr

/-- `KeyInfo::static_size` = `size_of::<StoragePreference>()` = 1 byte. -/
def KeyInfo.static_size : Nat := 1

def KeyInfo.size (_ : KeyInfo) : Nat := KeyInfo.static_size

/-- `KeyInfo::pack`: write the preference byte. -/
def KeyInfo.pack (i : KeyInfo) : Bytes := [i.storage_preference % 256]

/-- `KeyInfo::unpack`: read one byte. -/
def KeyInfo.unpack (d : Bytes) : KeyInfo := ⟨d.getD 0 0⟩

structure Location where
  off : Nat
  len : Nat
deriving DecidableEq, Repr

def Location.static_size : Nat := 8

/-- `Location::pack`: `off` then `len`, little endian. -/
def Location.pack (l : Location) : Bytes := le32 l.off ++ le32 l.len

/-- `Location::unpack`. -/
def Location.unpack (d : Bytes) : Location := ⟨readLe32 d 0, readLe32 d 4⟩

/-- `&buf[loc.range()]`, i.e. `buf[off .. off + len]`. -/
def sliceRange (buf : Bytes) (l : Location) : Bytes := (buf.drop l.off).take l.len

/-- `unpack_entry`: first byte is the packed `KeyInfo`, the remainder the
value. -/
def unpack_entry (d : Bytes) : KeyInfo × Bytes := (KeyInfo.unpack d, d.drop 1)

/-- Modelled from the spec: `StoragePreference::NONE` (defined in
`betree/src/lib.rs`, not under `src/`): preferences are `u8` values `0..=C`
with `NONE = C` meaning "no preference"; the number of storage classes is 4. -/
def StoragePrefNONE : Nat := 4

/-- Modelled from the spec: `StoragePreference::upgrade` (in
`betree/src/lib.rs`, not under `src/`): two preferences merge by choosing the
stricter (faster, numerically smaller) tier. -/
def prefUpgrade (a b : Nat) : Nat := min a b

/-- Modelled from the spec: `AtomicStoragePreference` (in `betree/src/lib.rs`,
not under `src/`): a cached storage preference that is either known (`some p`)
or invalidated (`none`). -/
abbrev AtomicStoragePref := Option Nat

/-- Modelled from the spec: `AtomicStoragePreference::upgrade` (in
`betree/src/lib.rs`, not under `src/`): upgrading a known preference picks the
stricter one; an invalidated preference stays invalidated. -/
def atomicPrefUpgrade (a : AtomicStoragePref) (p : Nat) : AtomicStoragePref :=
  a.map (fun v => min v p)

/-- Modelled from the spec: `AtomicStoragePreference::upgrade_atomic` (in
`betree/src/lib.rs`, not under `src/`): merging with an invalidated operand
cannot be computed, so the result is invalidated; otherwise the stricter
preference is chosen. -/
def atomicPrefUpgradeAtomic (a b : AtomicStoragePref) : AtomicStoragePref :=
  match a, b with
  | some x, some y => some (min x y)
  | _, _ => none

/-- The two-phase NVM leaf state.  The `OnceLock` cell of the partially loaded
state is modelled as an `Option`; `partLoaded` models `PartiallyLoaded`. -/
inductive NVMLeafNodeState where
  | partLoaded (buf : Bytes) (data : List (Key × Location × Option (KeyInfo × Bytes)))
  | deserialized (data : List (Key × KeyInfo × Bytes))
deriving DecidableEq, Repr

/-- `NVMLeafNodeMetaData`; the two atomic preference wrappers are modelled from
the spec (see `AtomicStoragePref`), the system preference as its stored byte. -/
structure NVMLeafNodeMetaData where
  storage_preference : AtomicStoragePref
  system_storage_preference : Nat
  entries_size : Nat
deriving DecidableEq, Repr

/-- `NVMLeafNodeMetaData::static_size` = 1 + 1 + 4 bytes. -/
def NVMLeafNodeMetaData.static_size : Nat := 6

/-- `NVMLeafNodeMetaData::pack`: preference byte (`NONE` when invalidated),
system preference byte (`strong_bound(&NONE)`, modelled from the spec as the
stored byte), then `entries_size` as `u32`. -/
def NVMLeafNodeMetaData.pack (m : NVMLeafNodeMetaData) : Bytes :=
  [(m.storage_preference.getD StoragePrefNONE) % 256,
   m.system_storage_preference % 256] ++ le32 m.entries_size

/-- `NVMLeafNodeMetaData::unpack`. -/
def NVMLeafNodeMetaData.unpack (d : Bytes) : NVMLeafNodeMetaData :=
  { storage_preference := some (d.getD 0 0)
    system_storage_preference := d.getD 1 0
    entries_size := readLe32 d 2 }

/-- `NVMLeafNode` (the checksum and the load-details bookkeeping carry no data
relevant to the checked properties and are omitted). -/
structure NVMLeafNode where
  state : NVMLeafNodeState
  meta_data : NVMLeafNodeMetaData
deriving DecidableEq, Repr

/-! ## NVM leaf node: state operations -/

/-- `NVMLeafNodeState::get`: in the partially loaded state the cell is
initialised on demand from the buffer slice (`OnceLock::get_or_init` with
`unpack_entry`). -/
def NVMLeafNodeState.get (st : NVMLeafNodeState) (k : Key) : Option (KeyInfo × Bytes) :=
  match st with
  | .partLoaded buf data =>
      (data.find? (fun e => decide (e.1 = k))).map
        (fun e => match e.2.2 with
          | some v => v
          | none => unpack_entry (sliceRange buf e.2.1))
  | .deserialized data => alGet data k

/-- `NVMLeafNodeState::fetch`: force every cell to be initialised from the
buffer.  The interior mutability of the `OnceLock` cells is modelled by
returning the updated state. -/
def NVMLeafNodeState.fetch (st : NVMLeafNodeState) : NVMLeafNodeState :=
  match st with
  | .partLoaded buf data =>
      .partLoaded buf (data.map (fun e =>
        (e.1, e.2.1, some (match e.2.2 with
          | some v => v
          | none => unpack_entry (sliceRange buf e.2.1)))))
  | .deserialized data => .deserialized data

inductive NVMLeafError where
  | AttemptedInvalidTransition
  | AlreadyDeserialized
deriving DecidableEq, Repr

/-- `NVMLeafNodeState::upgrade`: fails with `AttemptedInvalidTransition` when
some cell is unfetched (the fetched count is below the entry count), with
`AlreadyDeserialized` on a deserialized state, and otherwise moves all cell
contents into a deserialized map (`filterMap` equals the source's
`take().unwrap()` map because the guard ensures every cell is `some`). -/
def NVMLeafNodeState.upgrade (st : NVMLeafNodeState) :
    Except NVMLeafError NVMLeafNodeState :=
  match st with
  | .partLoaded _ data =>
      if (data.filter (fun e => e.2.2.isSome)).length < data.length then
        .error .AttemptedInvalidTransition
      else
        .ok (.deserialized (data.filterMap (fun e => e.2.2.map (fun v => (e.1, v)))))
  | .deserialized _ => .error .AlreadyDeserialized

/-- `NVMLeafNodeState::force_upgrade`: fetch all cells, then upgrade;
`AlreadyDeserialized` is swallowed, `AttemptedInvalidTransition` is a panic
(`none`). -/
def NVMLeafNodeState.force_upgrade (st : NVMLeafNodeState) : Option NVMLeafNodeState :=
  match st.fetch.upgrade with
  | .ok st' => some st'
  | .error .AlreadyDeserialized => some st.fetch
  | .error .AttemptedInvalidTransition => none

/-- `NVMLeafNodeState::insert`: only legal on the deserialized state
(`unimplemented!()` otherwise, modelled as `none`).  Returns the replaced
entry, if any, and the new state. -/
def NVMLeafNodeState.insert (st : NVMLeafNodeState) (k : Key) (v : KeyInfo × Bytes) :
    Option (Option (KeyInfo × Bytes) × NVMLeafNodeState) :=
  match st with
  | .partLoaded _ _ => none
  | .deserialized data => some (alGet data k, .deserialized (alInsert data k v))

def NVMLeafNodeState.lenEntries (st : NVMLeafNodeState) : Nat :=
  match st with
  | .partLoaded _ data => data.length
  | .deserialized data => data.length

/-! ## NVM leaf node: node operations -/

/-- `Size::size` for `NVMLeafNode`: fixed header, static metadata,
`entries_size`. -/
def NVMLeafNode.size (n : NVMLeafNode) : Nat :=
  NVMLEAF_HEADER_FIXED_LEN + NVMLeafNodeMetaData.static_size + n.meta_data.entries_size

/-- `Size::actual_size` for `NVMLeafNode`: data bytes plus key bytes plus
per-key metadata plus headers, computed by iterating the entries.  `iter()` on
a partially loaded state is `todo!()` in the source, modelled as `none`. -/
def NVMLeafNode.actual_size (n : NVMLeafNode) : Option Nat :=
  match n.state with
  | .partLoaded _ _ => none
  | .deserialized data =>
      some (NVMLEAF_HEADER_FIXED_LEN + NVMLeafNodeMetaData.static_size
        + (data.map (fun e => e.2.2.length + (e.2.1).size)).sum
        + (data.map (fun e => NVMLEAF_PER_KEY_META_LEN + e.1.length)).sum)

/-- Key section of `NVMLeafNode::pack`: per entry `key_len | off | len | key`,
with the data offset advancing by `KeyInfo::static_size + val.len`. -/
def packKeySection : List (Key × KeyInfo × Bytes) → Nat → Bytes
  | [], _ => []
  | (k, _, v) :: rest, off =>
      le32 k.length ++ Location.pack ⟨off, v.length⟩ ++ k
        ++ packKeySection rest (off + KeyInfo.static_size + v.length)

/-- Data section of `NVMLeafNode::pack`: per entry the packed `KeyInfo` byte
followed by the value bytes. -/
def packDataSection : List (Key × KeyInfo × Bytes) → Bytes
  | [] => []
  | (_, i, v) :: rest => i.pack ++ v ++ packDataSection rest

/-- `NVMLeafNode::pack` (succeeds only on a fully deserialized node;
`force_data` panics otherwise). -/
def NVMLeafNode.pack (n : NVMLeafNode) : Option Bytes :=
  match n.state with
  | .partLoaded _ _ => none
  | .deserialized data =>
      let meta_len := NVMLeafNodeMetaData.static_size
        + data.length * NVMLEAF_PER_KEY_META_LEN
      let data_len := (data.map (fun e => (e.2.1).size + e.2.2.length)).sum
      some (le32 meta_len ++ le32 data_len ++ n.meta_data.pack
        ++ packKeySection data 0 ++ packDataSection data)

/-- Key-section parser of `NVMLeafNode::unpack`: read `(len, Location, key)`
records while `off < meta_end`.  Each step advances `off` by at least 12, so a
fuel of `meta_end` bounds the iteration count of the source loop. -/
def unpackKeys (d : Bytes) (meta_end : Nat) : Nat → Nat → List (Location × Key)
  | _, 0 => []
  | off, fuel + 1 =>
      if off < meta_end then
        let len := readLe32 d off
        let loc := Location.unpack ((d.drop (off + 4)).take 8)
        let key := (d.drop (off + 12)).take len
        (loc, key) :: unpackKeys d meta_end (off + 12 + len) fuel
      else []

/-- `NVMLeafNode::unpack`: parse the two length fields and the metadata, read
the key index, and keep the data region (the pool `slice` fetch returns
exactly the bytes `[data_start, data_start + data_len)` of the packed node) as
the partially loaded buffer with all cells unfetched. -/
def NVMLeafNode.unpack (d : Bytes) : NVMLeafNode :=
  let meta_data_len := readLe32 d 0
  let data_len := readLe32 d 4
  let meta_data_end := NVMLEAF_METADATA_OFFSET + meta_data_len
  let meta := NVMLeafNodeMetaData.unpack ((d.drop NVMLEAF_METADATA_OFFSET).take
    NVMLeafNodeMetaData.static_size)
  let keys := unpackKeys d meta_data_end
    (NVMLEAF_METADATA_OFFSET + NVMLeafNodeMetaData.static_size) meta_data_end
  { state := .partLoaded ((d.drop meta_data_end).take data_len)
      (keys.map (fun e => (e.2, e.1, none)))
    meta_data := meta }

/-- `NVMLeafNode::get` (value only). -/
def NVMLeafNode.get (n : NVMLeafNode) (k : Key) : Option Bytes :=
  (n.state.get k).map (·.2)

/-- `NVMLeafNode::get_with_info`. -/
def NVMLeafNode.get_with_info (n : NVMLeafNode) (k : Key) : Option (KeyInfo × Bytes) :=
  n.state.get k

/-- Size contribution of one entry in the split accounting:
`k.len + NVMLEAF_PER_KEY_META_LEN + v.len + KeyInfo::static_size`. -/
def entrySize (e : Key × KeyInfo × Bytes) : Nat :=
  e.1.length + NVMLEAF_PER_KEY_META_LEN + e.2.2.length + KeyInfo.static_size

/-- The reverse scan of `do_split_off`: walk `iter().rev()`, accumulating the
sibling size and upgrading the sibling preference, until `min_size` is
reached; the argument list is the reversed entry list. -/
def splitScanRev (min_size : Nat) :
    List (Key × KeyInfo × Bytes) → Nat → Nat → Option (Key × Nat × Nat)
  | [], _, _ => none
  | e :: rest, sz, pf =>
      let sz' := sz + entrySize e
      let pf' := prefUpgrade pf e.2.1.storage_preference
      if min_size ≤ sz' then some (e.1, sz', pf')
      else splitScanRev min_size rest sz' pf'

/-- `NVMLeafNode::do_split_off`: force-upgrade, find the split key by the
reverse scan, split the map (`BTreeMap::split_off`: the left node keeps keys
`< split_key`), move the accumulated size to the right sibling, invalidate the
left preference, and return the new pivot (last key of the left half) and the
size delta.  `none` models the source's panics (`split_key.unwrap()` on an
empty scan, `next_back().unwrap()` on an empty left half). -/
def NVMLeafNode.do_split_off (n right : NVMLeafNode) (min_size _max_size : Nat) :
    Option (NVMLeafNode × NVMLeafNode × Key × Int) :=
  match n.state.force_upgrade with
  | none => none
  | some (.partLoaded _ _) => none
  | some (.deserialized data) =>
    match splitScanRev min_size data.reverse 0 StoragePrefNONE with
    | none => none
    | some (split_key, sibling_size, sibling_pref) =>
      let ldata := data.takeWhile (fun e => decide (keyLt e.1 split_key))
      let rdata := data.dropWhile (fun e => decide (keyLt e.1 split_key))
      match ldata.getLast? with
      | none => none
      | some last =>
        some (
          { state := .deserialized ldata
            meta_data := { storage_preference := none
                           system_storage_preference := n.meta_data.system_storage_preference
                           entries_size := n.meta_data.entries_size - sibling_size } },
          { state := .deserialized rdata
            meta_data := { storage_preference := some sibling_pref
                           system_storage_preference := right.meta_data.system_storage_preference
                           entries_size := sibling_size } },
          last.1,
          -(sibling_size : Int))

/-- `NVMLeafNode::split`: fresh empty right sibling with `NONE` preferences,
then `do_split_off`.  Returns `(left', right', pivot, size_delta)`. -/
def NVMLeafNode.split (n : NVMLeafNode) (min_size max_size : Nat) :
    Option (NVMLeafNode × NVMLeafNode × Key × Int) :=
  let right : NVMLeafNode :=
    { state := .deserialized []
      meta_data := { storage_preference := some StoragePrefNONE
                     system_storage_preference := StoragePrefNONE
                     entries_size := 0 } }
  n.do_split_off right min_size max_size

/-- `NVMLeafNode::merge`: force-upgrade both sides, move all right entries
into the left map (`BTreeMap::append`; in every use the right keys are
strictly greater than the left keys, so this is list concatenation), add the
sizes, upgrade the left preference with the right one, and reset the right
sibling.  Returns `(left', right', size_delta)`. -/
def NVMLeafNode.merge (n right : NVMLeafNode) : Option (NVMLeafNode × NVMLeafNode × Int) :=
  match n.state.force_upgrade, right.state.force_upgrade with
  | some (.deserialized ld), some (.deserialized rd) =>
      some (
        { state := .deserialized (ld ++ rd)
          meta_data := { storage_preference :=
                           atomicPrefUpgradeAtomic n.meta_data.storage_preference
                             right.meta_data.storage_preference
                         system_storage_preference := n.meta_data.system_storage_preference
                         entries_size := n.meta_data.entries_size
                           + right.meta_data.entries_size } },
        { state := .deserialized []
          meta_data := { storage_preference := some StoragePrefNONE
                         system_storage_preference := right.meta_data.system_storage_preference
                         entries_size := 0 } },
        (right.meta_data.entries_size : Int))
  | _, _ => none

/-- `NVMLeafNode::insert`: force-upgrade, apply the external
`MessageAction::apply_to_leaf` (`msg_action`) to the current value, then
add/replace/remove the entry, updating `entries_size` and the cached
preference exactly as the source does.  Returns the new node and the size
delta; `none` models the `force_upgrade` panic. -/
def NVMLeafNode.insert (n : NVMLeafNode) (key : Key) (keyinfo : KeyInfo) (msg : Bytes)
    (msg_action : Key → Bytes → Option Bytes → Option Bytes) :
    Option (NVMLeafNode × Int) :=
  match n.state.force_upgrade with
  | none => none
  | some (.partLoaded _ _) => none
  | some (.deserialized data) =>
    let size_before : Int := (n.meta_data.entries_size : Int)
    let key_size := key.length
    let cur := (alGet data key).map (·.2)
    match msg_action key msg cur with
    | some newv =>
        let m1 := n.meta_data.entries_size + newv.length
        let pref1 := atomicPrefUpgrade n.meta_data.storage_preference
          keyinfo.storage_preference
        match alGet data key with
        | some old =>
            let m2 := m1 - old.2.length
            let pref2 := if old.1.storage_preference < keyinfo.storage_preference
              then none else pref1
            some ({ state := .deserialized (alInsert data key (keyinfo, newv))
                    meta_data := { storage_preference := pref2
                                   system_storage_preference :=
                                     n.meta_data.system_storage_preference
                                   entries_size := m2 } },
              (m2 : Int) - size_before)
        | none =>
            let m2 := m1 + key_size + NVMLEAF_PER_KEY_META_LEN + KeyInfo.static_size
            some ({ state := .deserialized (alInsert data key (keyinfo, newv))
                    meta_data := { storage_preference := pref1
                                   system_storage_preference :=
                                     n.meta_data.system_storage_preference
                                   entries_size := m2 } },
              (m2 : Int) - size_before)
    | none =>
        match alGet data key with
        | some old =>
            let pref2 := if n.meta_data.storage_preference
                = some old.1.storage_preference
              then none else n.meta_data.storage_preference
            let m2 := n.meta_data.entries_size - (key_size + NVMLEAF_PER_KEY_META_LEN)
              - (old.2.length + KeyInfo.static_size)
            some ({ state := .deserialized (alRemove data key)
                    meta_data := { storage_preference := pref2
                                   system_storage_preference :=
                                     n.meta_data.system_storage_preference
                                   entries_size := m2 } },
              (m2 : Int) - size_before)
        | none =>
            some ({ state := .deserialized data, meta_data := n.meta_data },
              (n.meta_data.entries_size : Int) - size_before)

/-! ## Helper lemmas: packed lengths -/

theorem le32_length (n : Nat) : (le32 n).length = 4 := rfl

theorem metaPack_length (m : NVMLeafNodeMetaData) : m.pack.length = 6 := rfl

theorem packKeySection_length (l : List (Key × KeyInfo × Bytes)) (off : Nat) :
    (packKeySection l off).length
      = (l.map (fun e => NVMLEAF_PER_KEY_META_LEN + e.1.length)).sum := by
  induction l generalizing off with
  | nil => rfl
  | cons e rest ih =>
      obtain ⟨k, i, v⟩ := e
      simp [packKeySection, le32, Location.pack, ih, NVMLEAF_PER_KEY_META_LEN]
      omega

theorem packDataSection_length (l : List (Key × KeyInfo × Bytes)) :
    (packDataSection l).length = (l.map (fun e => (e.2.1).size + e.2.2.length)).sum := by
  induction l with
  | nil => rfl
  | cons e rest ih =>
      obtain ⟨k, i, v⟩ := e
      simp [packDataSection, KeyInfo.pack, ih, KeyInfo.size, KeyInfo.static_size]
      omega

theorem sum_map_swap (l : List (Key × KeyInfo × Bytes)) (f g : Key × KeyInfo × Bytes → Nat) :
    (l.map (fun e => f e + g e)).sum = (l.map (fun e => g e + f e)).sum := by
  induction l with
  | nil => rfl
  | cons e rest ih => simp [ih]; omega

/-- Claim C5: for every fully deserialized NVM leaf node, `actual_size()`
returns `some n` with `n` exactly the number of bytes written by `pack` (the
8-byte length header, the 6 packed metadata bytes, 12 bytes plus the key
length per key, and 1 key-info byte plus the value length per entry). -/
theorem C5_actual_size_eq_pack_length (n : NVMLeafNode)
    (data : List (Key × KeyInfo × Bytes)) (h : n.state = .deserialized data) :
    ∃ bs : Bytes, n.pack = some bs ∧ n.actual_size = some bs.length := by
  obtain ⟨st, md⟩ := n
  dsimp only at h
  subst h
  refine ⟨_, rfl, ?_⟩
  simp only [NVMLeafNode.actual_size, NVMLeafNode.pack, List.length_append,
    le32_length, metaPack_length, packKeySection_length, packDataSection_length,
    Option.some.injEq]
  have hswap := sum_map_swap data (fun e => e.2.2.length) (fun e => (e.2.1).size)
  simp only [NVMLEAF_HEADER_FIXED_LEN, NVMLeafNodeMetaData.static_size] at *
  omega

/-- Claim C5 witness: a concrete two-entry node. -/
def nvmC5node : NVMLeafNode :=
  { state := .deserialized [([0], ⟨0⟩, [1, 2]), ([3, 4], ⟨1⟩, [5])]
    meta_data := { storage_preference := some 0
                   system_storage_preference := StoragePrefNONE
                   entries_size := 33 } }

theorem C5_witness :
    ∃ bs : Bytes, nvmC5node.pack = some bs ∧ nvmC5node.actual_size = some bs.length :=
  C5_actual_size_eq_pack_length nvmC5node
    [([0], ⟨0⟩, [1, 2]), ([3, 4], ⟨1⟩, [5])] rfl

/-! ## Upgrade and force-upgrade -/

theorem filter_isSome_length_lt_iff (data : List (Key × Location × Option (KeyInfo × Bytes))) :
    (data.filter (fun e => e.2.2.isSome)).length < data.length ↔
      ∃ e ∈ data, e.2.2 = none := by
  constructor
  · intro hlt
    by_contra hall
    push_neg at hall
    have hall' : ∀ e ∈ data, (fun e => e.2.2.isSome) e = true := by
      intro e he
      cases h2 : e.2.2 with
      | none => exact absurd h2 (hall e he)
      | some v => simp [h2]
    rw [List.filter_length_eq_length.mpr hall'] at hlt
    exact Nat.lt_irrefl _ hlt
  · intro ⟨e, he, hnone⟩
    have hle := List.length_filter_le (fun e => e.2.2.isSome) data
    rcases Nat.lt_or_ge (data.filter (fun e => e.2.2.isSome)).length data.length with h | h
    · exact h
    · exfalso
      have heq : (data.filter (fun e => e.2.2.isSome)).length = data.length :=
        Nat.le_antisymm hle h
      have := List.filter_length_eq_length.mp heq e he
      rw [hnone] at this
      simp at this

/-- Claim C6: `upgrade()` returns `AttemptedInvalidTransition` iff the state
is partially loaded with at least one unfetched cell, `AlreadyDeserialized`
iff the state is already deserialized, and otherwise succeeds with exactly the
previously fetched entries. -/
theorem C6_upgrade_spec (st : NVMLeafNodeState) :
    (st.upgrade = .error .AttemptedInvalidTransition ↔
      ∃ buf data, st = .partLoaded buf data ∧ ∃ e ∈ data, e.2.2 = none) ∧
    (st.upgrade = .error .AlreadyDeserialized ↔
      ∃ data, st = .deserialized data) ∧
    (∀ buf data, st = .partLoaded buf data → (∀ e ∈ data, e.2.2 ≠ none) →
      st.upgrade = .ok (.deserialized
        (data.filterMap (fun e => e.2.2.map (fun v => (e.1, v)))))) := by
  refine ⟨?_, ?_, ?_⟩
  · cases st with
    | partLoaded buf data =>
        rw [NVMLeafNodeState.upgrade]
        by_cases hc : (data.filter (fun e => e.2.2.isSome)).length < data.length
        · rw [if_pos hc]
          constructor
          · intro _
            exact ⟨buf, data, rfl, (filter_isSome_length_lt_iff data).mp hc⟩
          · intro _; rfl
        · rw [if_neg hc]
          constructor
          · intro h; exact absurd h (by simp)
          · rintro ⟨b, d2, heq, hex⟩
            injection heq with h1 h2
            subst h1; subst h2
            exact absurd ((filter_isSome_length_lt_iff data).mpr hex) hc
    | deserialized data =>
        rw [NVMLeafNodeState.upgrade]
        constructor
        · intro h; exact absurd h (by simp)
        · rintro ⟨b, d2, heq, _⟩; exact absurd heq (by simp)
  · cases st with
    | partLoaded buf data =>
        rw [NVMLeafNodeState.upgrade]
        by_cases hc : (data.filter (fun e => e.2.2.isSome)).length < data.length
        · rw [if_pos hc]
          constructor
          · intro h; exact absurd h (by simp)
          · rintro ⟨d2, heq⟩; exact absurd heq (by simp)
        · rw [if_neg hc]
          constructor
          · intro h; exact absurd h (by simp)
          · rintro ⟨d2, heq⟩; exact absurd heq (by simp)
    | deserialized data =>
        rw [NVMLeafNodeState.upgrade]
        simp
  · rintro buf data rfl hall
    rw [NVMLeafNodeState.upgrade]
    rw [if_neg]
    intro hlt
    obtain ⟨e, he, hnone⟩ := (filter_isSome_length_lt_iff data).mp hlt
    exact hall e he hnone

theorem C6_witness :
    NVMLeafNodeState.upgrade
        (.partLoaded [] [([0], ⟨0, 2⟩, none)]) = .error .AttemptedInvalidTransition :=
  (C6_upgrade_spec _).1.mpr
    ⟨[], [([0], ⟨0, 2⟩, none)], rfl,
      ⟨([0], ⟨0, 2⟩, none), List.mem_singleton.mpr rfl, rfl⟩⟩

theorem force_upgrade_deserialized (data : List (Key × KeyInfo × Bytes)) :
    NVMLeafNodeState.force_upgrade (.deserialized data) = some (.deserialized data) := by
  rfl

/-- After `fetch`, every cell of a partially loaded state is initialised. -/
def fetchedCells (buf : Bytes) (data : List (Key × Location × Option (KeyInfo × Bytes))) :
    List (Key × Location × Option (KeyInfo × Bytes)) :=
  data.map (fun e =>
    (e.1, e.2.1, some (match e.2.2 with
      | some v => v
      | none => unpack_entry (sliceRange buf e.2.1))))

theorem force_upgrade_eq_deserialized (st : NVMLeafNodeState) :
    ∃ d, st.force_upgrade = some (.deserialized d) := by
  cases st with
  | partLoaded buf data =>
      have hfetch : (NVMLeafNodeState.partLoaded buf data).fetch
          = .partLoaded buf (fetchedCells buf data) := rfl
      have hnot : ¬ ((fetchedCells buf data).filter
            (fun e => e.2.2.isSome)).length < (fetchedCells buf data).length := by
        intro hlt
        obtain ⟨e, he, hnone⟩ := (filter_isSome_length_lt_iff _).mp hlt
        simp only [fetchedCells, List.mem_map] at he
        obtain ⟨a, _, ha⟩ := he
        rw [← ha] at hnone
        simp at hnone
      have hupg : (NVMLeafNodeState.partLoaded buf data).fetch.upgrade
          = .ok (.deserialized ((fetchedCells buf data).filterMap
              (fun e => e.2.2.map (fun v => (e.1, v))))) := by
        rw [hfetch, NVMLeafNodeState.upgrade, if_neg hnot]
      exact ⟨_, by rw [NVMLeafNodeState.force_upgrade, hupg]⟩
  | deserialized data => exact ⟨data, force_upgrade_deserialized data⟩

/-- Claim C9: `NVMLeafNode::insert` never fails and always leaves the node in
the deserialized state: it first force-upgrades (fetching all unfetched
cells), then applies the message, so a partially loaded state never survives
a mutation. -/
theorem C9_insert_leaves_deserialized (n : NVMLeafNode) (key : Key) (keyinfo : KeyInfo)
    (msg : Bytes) (act : Key → Bytes → Option Bytes → Option Bytes) :
    ∃ n' delta data, n.insert key keyinfo msg act = some (n', delta) ∧
      n'.state = .deserialized data := by
  obtain ⟨d, hd⟩ := force_upgrade_eq_deserialized n.state
  simp only [NVMLeafNode.insert, hd]
  cases hact : act key msg (Option.map (fun x => x.2) (alGet d key)) with
  | some newv =>
      cases hget : alGet d key with
      | some old => exact ⟨_, _, _, rfl, rfl⟩
      | none => exact ⟨_, _, _, rfl, rfl⟩
  | none =>
      cases hget : alGet d key with
      | some old => exact ⟨_, _, _, rfl, rfl⟩
      | none => exact ⟨_, _, _, rfl, rfl⟩

/-- Concrete single-entry leaf exhibiting the pack/unpack corruption: key
`[0]` maps to value `[1, 2]`; `entries_size` is the exact packed entry size. -/
def nvmC2node : NVMLeafNode :=
  { state := .deserialized [([0], ⟨0⟩, [1, 2])]
    meta_data := { storage_preference := some 0
                   system_storage_preference := StoragePrefNONE
                   entries_size := 16 } }

/-- Claim C2: packing and then unpacking is *not* the identity on `get`: the
data region written by `pack` starts after the key metadata *and* the key
bytes, while `unpack` slices it at `8 + meta_len` where `meta_len` counts only
12 bytes per key (shifting the region left by the total key length), and each
entry's `Location.len` omits the `KeyInfo` byte, truncating the value.  On the
single-entry node, the original `get` returns `(pref 0, [1, 2])` but the
roundtripped `get` returns `(pref 0, [0])`. -/
theorem C2_pack_unpack_not_id :
    nvmC2node.get_with_info [0] = some (⟨0⟩, [1, 2]) ∧
    (NVMLeafNode.unpack ((nvmC2node.pack).getD [])).get_with_info [0]
      = some (⟨0⟩, [0]) ∧
    (NVMLeafNode.unpack ((nvmC2node.pack).getD [])).get_with_info [0]
      ≠ nvmC2node.get_with_info [0] := by
  refine ⟨by decide, by decide, by decide⟩

/-! ## Split: reverse-scan lemmas -/

def sizeSum (l : List (Key × KeyInfo × Bytes)) : Nat := (l.map entrySize).sum

theorem sizeSum_cons (e : Key × KeyInfo × Bytes) (l : List (Key × KeyInfo × Bytes)) :
    sizeSum (e :: l) = entrySize e + sizeSum l := by simp [sizeSum]

theorem sizeSum_append (a b : List (Key × KeyInfo × Bytes)) :
    sizeSum (a ++ b) = sizeSum a + sizeSum b := by simp [sizeSum]

theorem sizeSum_reverse (l : List (Key × KeyInfo × Bytes)) :
    sizeSum l.reverse = sizeSum l := by simp [sizeSum, List.sum_reverse]

theorem splitScanRev_total (min_size : Nat) (l : List (Key × KeyInfo × Bytes))
    (acc pf : Nat) (h : min_size ≤ acc + sizeSum l) (hne : l ≠ []) :
    ∃ k sz pf', splitScanRev min_size l acc pf = some (k, sz, pf') := by
  induction l generalizing acc pf with
  | nil => exact absurd rfl hne
  | cons e rest ih =>
      simp only [splitScanRev]
      by_cases hc : min_size ≤ acc + entrySize e
      · rw [if_pos hc]; exact ⟨_, _, _, rfl⟩
      · rw [if_neg hc]
        cases rest with
        | nil =>
            exfalso
            apply hc
            rw [sizeSum_cons] at h
            simpa [sizeSum] using h
        | cons e2 r2 =>
            apply ih
            · rw [sizeSum_cons] at h
              omega
            · simp

theorem splitScanRev_spec (min_size : Nat) (l : List (Key × KeyInfo × Bytes))
    (acc pf : Nat) (k : Key) (sz pf' : Nat)
    (hacc : acc < min_size)
    (h : splitScanRev min_size l acc pf = some (k, sz, pf')) :
    ∃ pre e post, l = pre ++ e :: post ∧ e.1 = k ∧
      sz = acc + sizeSum pre + entrySize e ∧
      acc + sizeSum pre < min_size ∧ min_size ≤ sz := by
  induction l generalizing acc pf with
  | nil => simp [splitScanRev] at h
  | cons e0 rest ih =>
      simp only [splitScanRev] at h
      by_cases hc : min_size ≤ acc + entrySize e0
      · rw [if_pos hc] at h
        injection h with h'
        injection h' with h1 h2
        injection h2 with h2 h3
        exact ⟨[], e0, rest, rfl, h1, by simp [sizeSum, h2], by simpa [sizeSum], by omega⟩
      · rw [if_neg hc] at h
        have hacc' : acc + entrySize e0 < min_size := Nat.lt_of_not_le hc
        obtain ⟨pre, e, post, hl, hk, hsz, hlt, hmin⟩ := ih _ _ hacc' h
        refine ⟨e0 :: pre, e, post, by rw [hl, List.cons_append], hk, ?_, ?_, hmin⟩
        · rw [sizeSum_cons]; omega
        · rw [sizeSum_cons]; omega

/-! ## Sorted-list facts -/

theorem mem_of_getLast?_eq {α : Type} (l : List α) (x : α) (hx : l.getLast? = some x) :
    x ∈ l := by
  obtain ⟨hne, hxeq⟩ := List.mem_getLast?_eq_getLast (Option.mem_def.mpr hx)
  rw [hxeq]
  exact List.getLast_mem hne

/-- In a key-sorted list the `getLast?` element dominates every element. -/
theorem sorted_getLast_max (l : List (Key × KeyInfo × Bytes))
    (hs : l.Pairwise (fun a b => keyLt a.1 b.1)) (x : Key × KeyInfo × Bytes)
    (hx : l.getLast? = some x) (a : Key × KeyInfo × Bytes) (ha : a ∈ l) :
    a = x ∨ keyLt a.1 x.1 := by
  induction l with
  | nil => cases ha
  | cons e rest ih =>
      cases rest with
      | nil =>
          rcases List.mem_singleton.mp ha with rfl
          refine Or.inl ?_
          simp only [List.getLast?_singleton, Option.some.injEq] at hx
          simp_all
      | cons e2 r2 =>
          rw [List.getLast?_cons_cons] at hx
          have hs' := List.pairwise_cons.mp hs
          rcases ha with _ | ha'
          · have hxmem : x ∈ e2 :: r2 := mem_of_getLast?_eq _ _ hx
            exact Or.inr (hs'.1 x hxmem)
          · exact ih hs'.2 hx ‹_›

/-- Claim C4 (amended): for every fully loaded, key-sorted NVM leaf with
consistent `entries_size` whose size exceeds `max_size`, and which additionally
satisfies `size ≤ max_size + min_size` (the precondition of the repository's
own split test) and whose individual entries are small enough
(`entrySize + min_size + 13 ≤ max_size` and `entrySize + 2·min_size ≤
max_size + 2`), `split` produces a right sibling and a pivot key such that
both halves' sizes lie in `[min_size, max_size]`, the pivot key is ≥ every key
remaining in the left half, and the two halves' entries concatenate to the
original node's entries. -/
theorem C4_split_bounds (n : NVMLeafNode) (data : List (Key × KeyInfo × Bytes))
    (min_size max_size dmax : Nat)
    (hstate : n.state = .deserialized data)
    (hsorted : data.Pairwise (fun a b => keyLt a.1 b.1))
    (hwf : n.meta_data.entries_size = sizeSum data)
    (hover : max_size < n.size)
    (hupper : n.size ≤ max_size + min_size)
    (hmin : 1 ≤ min_size)
    (hdmax : ∀ e ∈ data, entrySize e ≤ dmax)
    (hd1 : dmax + min_size + 13 ≤ max_size)
    (hd2 : dmax + 2 * min_size ≤ max_size + 2) :
    ∃ l r p delta ldata rdata,
      n.split min_size max_size = some (l, r, p, delta) ∧
      l.state = .deserialized ldata ∧ r.state = .deserialized rdata ∧
      ldata ++ rdata = data ∧
      min_size ≤ l.size ∧ l.size ≤ max_size ∧
      min_size ≤ r.size ∧ r.size ≤ max_size ∧
      (∀ a ∈ ldata, ¬ keyLt p a.1) := by
  obtain ⟨st, md⟩ := n
  dsimp only at hstate
  subst hstate
  simp only [NVMLeafNode.size, NVMLEAF_HEADER_FIXED_LEN,
    NVMLeafNodeMetaData.static_size] at hover hupper
  dsimp only at hwf hover hupper
  have hdata_ne : data ≠ [] := by
    intro h0
    subst h0
    simp [sizeSum] at hwf
    omega
  have hrev_ne : data.reverse ≠ [] := by simpa using hdata_ne
  have hsum : min_size ≤ 0 + sizeSum data.reverse := by
    rw [sizeSum_reverse]
    omega
  obtain ⟨k, sz, pf, hscan⟩ :=
    splitScanRev_total min_size data.reverse 0 StoragePrefNONE hsum hrev_ne
  obtain ⟨pre, e, post, hrev, hk, hsz, hpre_lt, hsz_min⟩ :=
    splitScanRev_spec min_size data.reverse 0 StoragePrefNONE k sz pf (by omega) hscan
  have hdata_eq : data = post.reverse ++ e :: pre.reverse := by
    have h := congrArg List.reverse hrev
    simpa [List.reverse_append] using h
  have he_mem : e ∈ data := by rw [hdata_eq]; simp
  have he_dmax : entrySize e ≤ dmax := hdmax e he_mem
  have hszB : sizeSum pre.reverse = sizeSum pre := sizeSum_reverse pre
  have hsum_data : sizeSum data = sizeSum post.reverse + entrySize e + sizeSum pre.reverse := by
    rw [hdata_eq, sizeSum_append, sizeSum_cons]
    omega
  have hsz_le : sz ≤ min_size - 1 + dmax := by omega
  have hsz_le_data : sz ≤ sizeSum data := by omega
  have hA_ne : post.reverse ≠ [] := by
    intro h0
    have h0' : sizeSum post.reverse = 0 := by rw [h0]; rfl
    omega
  obtain ⟨a0, A', hA⟩ := List.exists_cons_of_ne_nil hA_ne
  have ha0_lt : keyLt a0.1 k := by
    have hmem : a0 ∈ post.reverse := by rw [hA]; exact List.mem_cons_self _ _
    have hsorted' := hdata_eq ▸ hsorted
    have hacross := (List.pairwise_append.mp hsorted').2.2
    have h := hacross a0 hmem e (List.mem_cons_self _ _)
    rw [hk] at h
    exact h
  have hld_ne : data.takeWhile (fun x => decide (keyLt x.1 k)) ≠ [] := by
    rw [hdata_eq, hA, List.cons_append,
      List.takeWhile_cons_of_pos (by simpa using ha0_lt)]
    simp
  obtain ⟨last, hlast⟩ :
      ∃ x, (data.takeWhile (fun x => decide (keyLt x.1 k))).getLast? = some x := by
    cases hq : (data.takeWhile (fun x => decide (keyLt x.1 k))).getLast? with
    | none => exact absurd (List.getLast?_eq_none_iff.mp hq) hld_ne
    | some x => exact ⟨x, rfl⟩
  have hsplit_eq : NVMLeafNode.split ⟨.deserialized data, md⟩ min_size max_size
      = some (⟨.deserialized (data.takeWhile (fun x => decide (keyLt x.1 k))),
               ⟨none, md.system_storage_preference, md.entries_size - sz⟩⟩,
              ⟨.deserialized (data.dropWhile (fun x => decide (keyLt x.1 k))),
               ⟨some pf, StoragePrefNONE, sz⟩⟩,
              last.1, -(sz : Int)) := by
    rw [NVMLeafNode.split]
    try dsimp only
    rw [NVMLeafNode.do_split_off]
    try dsimp only
    rw [force_upgrade_deserialized]
    try dsimp only
    rw [hscan]
    try dsimp only
    rw [hlast]
  have hsorted_ld : (data.takeWhile (fun x => decide (keyLt x.1 k))).Pairwise
      (fun a b => keyLt a.1 b.1) :=
    hsorted.sublist (List.takeWhile_sublist _)
  refine ⟨_, _, _, _, _, _, hsplit_eq, rfl, rfl,
    List.takeWhile_append_dropWhile _ _, ?_, ?_, ?_, ?_, ?_⟩
  · simp only [NVMLeafNode.size, NVMLEAF_HEADER_FIXED_LEN,
      NVMLeafNodeMetaData.static_size]
    omega
  · simp only [NVMLeafNode.size, NVMLEAF_HEADER_FIXED_LEN,
      NVMLeafNodeMetaData.static_size]
    omega
  · simp only [NVMLeafNode.size, NVMLEAF_HEADER_FIXED_LEN,
      NVMLeafNodeMetaData.static_size]
    omega
  · simp only [NVMLeafNode.size, NVMLEAF_HEADER_FIXED_LEN,
      NVMLeafNodeMetaData.static_size]
    omega
  · intro a ha
    rcases sorted_getLast_max _ hsorted_ld last hlast a ha with rfl | hlt
    · exact keyLt_irrefl _
    · exact keyLt_asymm hlt

/-- Concrete three-entry node for the C4 witness. -/
def nvmC4node : NVMLeafNode :=
  { state := .deserialized
      [([0], ⟨0⟩, [5, 5, 5]), ([1], ⟨1⟩, [6, 6, 6]), ([2], ⟨1⟩, [7, 7, 7])]
    meta_data := { storage_preference := some 0
                   system_storage_preference := StoragePrefNONE
                   entries_size := 51 } }

theorem C4_witness :
    ∃ l r p delta ldata rdata,
      nvmC4node.split 2 64 = some (l, r, p, delta) ∧
      l.state = .deserialized ldata ∧ r.state = .deserialized rdata ∧
      ldata ++ rdata
        = [([0], ⟨0⟩, [5, 5, 5]), ([1], ⟨1⟩, [6, 6, 6]), ([2], ⟨1⟩, [7, 7, 7])] ∧
      2 ≤ l.size ∧ l.size ≤ 64 ∧ 2 ≤ r.size ∧ r.size ≤ 64 ∧
      (∀ a ∈ ldata, ¬ keyLt p a.1) :=
  C4_split_bounds nvmC4node
    [([0], ⟨0⟩, [5, 5, 5]), ([1], ⟨1⟩, [6, 6, 6]), ([2], ⟨1⟩, [7, 7, 7])]
    2 64 17 rfl (by decide) (by decide) (by decide) (by decide) (by decide)
    (by decide) (by decide) (by decide)

/-- Concrete node with one oversized entry: `size = 134 > max_size = 70`, yet
the split halves land outside `[60, 70]`. -/
def nvmC4bad : NVMLeafNode :=
  { state := .deserialized [([0], ⟨0⟩, [9, 9, 9, 9, 9, 9]), ([1], ⟨1⟩, List.replicate 86 7)]
    meta_data := { storage_preference := some 0
                   system_storage_preference := StoragePrefNONE
                   entries_size := 120 } }

/-- Claim C4 counterexample: on a node whose size (134) exceeds
`max_size = 70`, `split(60, 70)` yields a right sibling of size 114 > 70 and a
left half of size 34 < 60, refuting the claim that both halves' sizes always
lie in `[min_size, max_size]`. -/
theorem C4_counterexample :
    70 < nvmC4bad.size ∧
    ∃ l r p delta, nvmC4bad.split 60 70 = some (l, r, p, delta) ∧
      70 < r.size ∧ l.size < 60 := by
  refine ⟨by decide, ?_⟩
  refine ⟨{ state := .deserialized [([0], ⟨0⟩, [9, 9, 9, 9, 9, 9])]
            meta_data := { storage_preference := none
                           system_storage_preference := 4
                           entries_size := 20 } },
          { state := .deserialized [([1], ⟨1⟩, List.replicate 86 7)]
            meta_data := { storage_preference := some 1
                           system_storage_preference := 4
                           entries_size := 100 } },
          [0], -100, by decide, by decide, by decide⟩

theorem splitScanRev_sz_le (min_size : Nat) (l : List (Key × KeyInfo × Bytes))
    (acc pf : Nat) (k : Key) (sz pf' : Nat)
    (h : splitScanRev min_size l acc pf = some (k, sz, pf')) :
    sz ≤ acc + sizeSum l := by
  induction l generalizing acc pf with
  | nil => simp [splitScanRev] at h
  | cons e0 rest ih =>
      simp only [splitScanRev] at h
      by_cases hc : min_size ≤ acc + entrySize e0
      · rw [if_pos hc] at h
        injection h with h'
        injection h' with h1 h2
        injection h2 with h2 h3
        rw [sizeSum_cons]
        omega
      · rw [if_neg hc] at h
        have := ih _ _ h
        rw [sizeSum_cons]
        omega

/-- Claim C7 (amended): splitting and then merging back restores the entry
map, the `entries_size` and the system storage preference; the cached storage
preference is *not* restored — `split` invalidates the left node's preference
and `merge` cannot recover the original value (the repository's own
`split_merge_idempotent` test re-derives it with `recalculate()` before
merging). -/
theorem C7_split_merge (n l r m r' : NVMLeafNode) (p : Key) (delta delta' : Int)
    (data : List (Key × KeyInfo × Bytes)) (min_size max_size : Nat)
    (hstate : n.state = .deserialized data)
    (hwf : n.meta_data.entries_size = sizeSum data)
    (hsplit : n.split min_size max_size = some (l, r, p, delta))
    (hmerge : l.merge r = some (m, r', delta')) :
    m.state = n.state ∧
    m.meta_data.entries_size = n.meta_data.entries_size ∧
    m.meta_data.system_storage_preference = n.meta_data.system_storage_preference := by
  obtain ⟨st, md⟩ := n
  dsimp only at hstate
  subst hstate
  dsimp only at hwf
  rw [NVMLeafNode.split] at hsplit
  try dsimp only at hsplit
  rw [NVMLeafNode.do_split_off] at hsplit
  try dsimp only at hsplit
  rw [force_upgrade_deserialized] at hsplit
  try dsimp only at hsplit
  cases hscan : splitScanRev min_size data.reverse 0 StoragePrefNONE with
  | none =>
      rw [hscan] at hsplit
      exact absurd hsplit (by simp)
  | some t =>
      obtain ⟨k, sz, pf⟩ := t
      rw [hscan] at hsplit
      try dsimp only at hsplit
      have hsz_le : sz ≤ sizeSum data := by
        have h := splitScanRev_sz_le min_size data.reverse 0 StoragePrefNONE k sz pf hscan
        rw [sizeSum_reverse] at h
        omega
      cases hlast : (data.takeWhile (fun e => decide (keyLt e.1 k))).getLast? with
      | none =>
          rw [hlast] at hsplit
          exact absurd hsplit (by simp)
      | some last =>
          rw [hlast] at hsplit
          simp only [Option.some.injEq, Prod.mk.injEq] at hsplit
          obtain ⟨hl, hr, hp, hdelta⟩ := hsplit
          subst hl
          subst hr
          rw [NVMLeafNode.merge] at hmerge
          try dsimp only at hmerge
          rw [force_upgrade_deserialized, force_upgrade_deserialized] at hmerge
          try dsimp only at hmerge
          simp only [Option.some.injEq, Prod.mk.injEq] at hmerge
          obtain ⟨hm, hr', hdelta'⟩ := hmerge
          subst hm
          refine ⟨?_, ?_, rfl⟩
          · dsimp only
            rw [List.takeWhile_append_dropWhile]
          · dsimp only
            omega

/-- Concrete three-entry node for C7. -/
def nvmC7node : NVMLeafNode :=
  { state := .deserialized
      [([0], ⟨0⟩, [9, 9]), ([1], ⟨1⟩, [8, 8]), ([2], ⟨1⟩, [7, 7])]
    meta_data := { storage_preference := some 0
                   system_storage_preference := StoragePrefNONE
                   entries_size := 48 } }

/-- Claim C7 counterexample: after `split(16, 40); merge`, the entry map,
`entries_size` and system preference are restored, but the cached storage
preference is `none` (invalidated by split) instead of the original `some 0`,
so the metadata is not equal. -/
theorem C7_counterexample :
    ∃ l r p delta m r' delta',
      nvmC7node.split 16 40 = some (l, r, p, delta) ∧
      l.merge r = some (m, r', delta') ∧
      m.meta_data.storage_preference ≠ nvmC7node.meta_data.storage_preference := by
  refine ⟨{ state := .deserialized [([0], ⟨0⟩, [9, 9]), ([1], ⟨1⟩, [8, 8])]
            meta_data := { storage_preference := none
                           system_storage_preference := 4
                           entries_size := 32 } },
          { state := .deserialized [([2], ⟨1⟩, [7, 7])]
            meta_data := { storage_preference := some 1
                           system_storage_preference := 4
                           entries_size := 16 } },
          [1], -16,
          { state := .deserialized
              [([0], ⟨0⟩, [9, 9]), ([1], ⟨1⟩, [8, 8]), ([2], ⟨1⟩, [7, 7])]
            meta_data := { storage_preference := none
                           system_storage_preference := 4
                           entries_size := 48 } },
          { state := .deserialized []
            meta_data := { storage_preference := some 4
                           system_storage_preference := 4
                           entries_size := 0 } },
          16, by decide, by decide, by decide⟩

theorem C7_witness :
    ({ state := .deserialized
         [([0], ⟨0⟩, [9, 9]), ([1], ⟨1⟩, [8, 8]), ([2], ⟨1⟩, [7, 7])]
       meta_data := { storage_preference := none
                      system_storage_preference := 4
                      entries_size := 48 } } : NVMLeafNode).state = nvmC7node.state ∧
    (48 : Nat) = nvmC7node.meta_data.entries_size ∧
    (4 : Nat) = nvmC7node.meta_data.system_storage_preference :=
  C7_split_merge nvmC7node
    { state := .deserialized [([0], ⟨0⟩, [9, 9]), ([1], ⟨1⟩, [8, 8])]
      meta_data := { storage_preference := none
                     system_storage_preference := 4
                     entries_size := 32 } }
    { state := .deserialized [([2], ⟨1⟩, [7, 7])]
      meta_data := { storage_preference := some 1
                     system_storage_preference := 4
                     entries_size := 16 } }
    { state := .deserialized
        [([0], ⟨0⟩, [9, 9]), ([1], ⟨1⟩, [8, 8]), ([2], ⟨1⟩, [7, 7])]
      meta_data := { storage_preference := none
                     system_storage_preference := 4
                     entries_size := 48 } }
    { state := .deserialized []
      meta_data := { storage_preference := some 4
                     system_storage_preference := 4
                     entries_size := 0 } }
    [1] (-16) 16
    [([0], ⟨0⟩, [9, 9]), ([1], ⟨1⟩, [8, 8]), ([2], ⟨1⟩, [7, 7])]
    16 40 rfl (by decide) (by decide) (by decide)

/-! ## Persistent replication cache: data model (`replication/lru.rs`,
`replication/mod.rs`)

`PalPtr` pointers are modelled as `Nat`; the persistent node memory is a total
function (every `fetch` in the source `unwrap`s).  Keys of the cache map are
the 64-bit `XxHash64` values the source computes before every operation; the
hash function itself is external, so the model works directly on hashes. -/

/-- A persistent LRU node (`PlruNode<T>`, 256 bytes); the generic baggage is
modelled as a `Nat`. -/
structure PlruNode where
  fwd : Option Nat
  back : Option Nat
  size : Nat
  hash : Nat
  baggage : Nat
deriving DecidableEq, Repr

/-- Persistent node memory. -/
abbrev Mem := Nat → PlruNode

/-- Write through a pointer. -/
def mupdate (mem : Mem) (p : Nat) (f : PlruNode → PlruNode) : Mem :=
  fun q => if q = p then f (mem p) else mem q

theorem mupdate_same (mem : Mem) (p : Nat) (f : PlruNode → PlruNode) :
    (mupdate mem p f) p = f (mem p) := by simp [mupdate]

theorem mupdate_other (mem : Mem) (p : Nat) (f : PlruNode → PlruNode) (q : Nat)
    (h : q ≠ p) : (mupdate mem p f) q = mem q := by simp [mupdate, h]

/-- `Plru<T>`: head/tail pointers and counters of the persistent LRU. -/
structure Plru where
  head : Option Nat
  tail : Option Nat
  capacity : Nat
  count : Nat
  size : Nat
deriving DecidableEq, Repr

/-- `Plru::init`. -/
def Plru.init (capacity : Nat) : Plru :=
  { head := none, tail := none, capacity := capacity, size := 0, count := 0 }

/-- `Plru::cut_node_and_stitch`: unlink `p`, stitching its neighbours
together and updating `head`/`tail`; reads happen at their program points. -/
def cut_node_and_stitch (l : Plru) (mem : Mem) (p : Nat) : Plru × Mem :=
  let mem1 := match (mem p).fwd with
    | some q => mupdate mem q (fun n => { n with back := (mem p).back })
    | none => mem
  let tail1 := if l.tail = some p then (mem1 p).fwd else l.tail
  let mem2 := match (mem1 p).back with
    | some q => mupdate mem1 q (fun n => { n with fwd := (mem1 p).fwd })
    | none => mem1
  let head1 := if l.head = some p then (mem2 p).back else l.head
  let mem3 := mupdate mem2 p (fun n => { n with fwd := none, back := none })
  ({ l with tail := tail1, head := head1 }, mem3)

/-- `Plru::touch`: move `p` to the head; `none` models the
`expect("Invalid State")` panic. -/
def Plru.touch (l : Plru) (mem : Mem) (p : Nat) : Option (Plru × Mem) :=
  if l.head = some p then some (l, mem)
  else
    let c := cut_node_and_stitch l mem p
    match c.1.head with
    | none => none
    | some oh =>
        let mem2 := mupdate c.2 oh (fun n => { n with fwd := some p })
        let mem3 := mupdate mem2 p (fun n => { n with back := c.1.head })
        some ({ c.1 with head := some p }, mem3)

/-- `Plru::insert`: initialise the fresh node and link it in at the head. -/
def Plru.insert (l : Plru) (mem : Mem) (p hash size baggage : Nat) : Plru × Mem :=
  let mem1 := mupdate mem p (fun _ =>
    { fwd := none, back := l.head, size := size, hash := hash, baggage := baggage })
  match l.head with
  | some hp =>
      let mem2 := mupdate mem1 hp (fun n => { n with fwd := some p })
      ({ l with head := some p, size := l.size + size, count := l.count + 1 }, mem2)
  | none =>
      ({ l with
          head := some p
          tail := some p
          size := l.size + size
          count := l.count + 1 }, mem1)

/-- `Plru::evict`: pure check; returns the tail's `(hash, baggage)` when the
projected size exceeds the capacity. -/
def Plru.evict (l : Plru) (mem : Mem) (size : Nat) : Option (Nat × Nat) :=
  match l.tail with
  | some t => if l.size + size > l.capacity then some ((mem t).hash, (mem t).baggage)
              else none
  | none => none

/-- `Plru::remove`: unlink and adjust the counters (`u64` subtraction cannot
underflow in list-consistent states, which is proved below). -/
def Plru.remove (l : Plru) (mem : Mem) (p : Nat) : Plru × Mem :=
  let c := cut_node_and_stitch l mem p
  ({ c.1 with size := c.1.size - (c.2 p).size, count := c.1.count - 1 }, c.2)

/-! ## Persistent cache: map and state -/

/-- `PCacheMapEntry`. -/
structure PCacheMapEntry where
  size : Nat
  lru_node : Nat
  data : Nat
deriving DecidableEq, Repr

/-- `BTreeMap::get` on a `u64`-keyed association list. -/
def nmGet {α : Type} (l : List (Nat × α)) (k : Nat) : Option α :=
  (l.find? (fun e => decide (e.1 = k))).map (·.2)

/-- `BTreeMap::insert` on a key-sorted association list. -/
def nmInsert {α : Type} : List (Nat × α) → Nat → α → List (Nat × α)
  | [], k, v => [(k, v)]
  | (k', v') :: rest, k, v =>
    if k = k' then (k, v) :: rest
    else if k < k' then (k, v) :: (k', v') :: rest
    else (k', v') :: nmInsert rest k v

/-- `BTreeMap::remove` on an association list, returning the removed entry. -/
def nmRemove {α : Type} : List (Nat × α) → Nat → Option α × List (Nat × α)
  | [], _ => (none, [])
  | (k', v') :: rest, k =>
    if k = k' then (some v', rest)
    else
      let r := nmRemove rest k
      (r.1, (k', v') :: r.2)

/-- `PMapError` (the variants the replication cache produces). -/
inductive PMapError where
  | DoesNotExist
  | ExternalError
deriving DecidableEq, Repr

/-- The persistent cache root (`PCacheRoot`) plus the allocator state:
`mem` is the LRU node memory, `dataMem` the data allocations, `alloc` the next
fresh persistent pointer, `freed` the pointers released via `free()`. -/
structure PCache where
  lru : Plru
  mem : Mem
  map : List (Nat × PCacheMapEntry)
  dataMem : Nat → Bytes
  alloc : Nat
  freed : List Nat

/-- `PersistentCache::get` (on the key's hash): on a hit, touch the LRU node
and return the stored bytes; on a miss, `DoesNotExist` with the state
untouched.  `none` models the `touch` panic. -/
def PCache.get (st : PCache) (k : Nat) : Option (Except PMapError Bytes × PCache) :=
  match nmGet st.map k with
  | some entry =>
      (st.lru.touch st.mem entry.lru_node).map (fun lm =>
        (.ok (st.dataMem entry.data), { st with lru := lm.1, mem := lm.2 }))
  | none => some (.error .DoesNotExist, st)

/-- `PersistentCache::remove` (on the key's hash). -/
def PCache.remove (st : PCache) (k : Nat) : Except PMapError PCache :=
  match nmRemove st.map k with
  | (some entry, map') =>
      let c := Plru.remove st.lru st.mem entry.lru_node
      .ok { st with
            lru := c.1
            mem := c.2
            map := map'
            freed := entry.lru_node :: entry.data :: st.freed }
  | (none, _) => .error .DoesNotExist

/-- The eviction loop of `PersistentCacheInsertion::insert`: evict victims
while the LRU demands it, calling the write-back `f` on each; on a failed
write-back return the error (`false`) with the state as mutated so far.  Each
successful iteration removes one LRU node, so a fuel of `count + 1` covers
every terminating run; `none` models both the `unwrap` panic on a dangling
victim key and a non-terminating (inconsistent) list. -/
def insertEvictLoop (f : Nat → Bytes → Bool) (vlen : Nat) :
    Nat → PCache → Option (Bool × PCache)
  | 0, _ => none
  | fuel + 1, st =>
      match st.lru.evict st.mem vlen with
      | none => some (true, st)
      | some kb =>
          match nmGet st.map kb.1 with
          | none => none
          | some entry =>
              if f kb.2 (st.dataMem entry.data) then
                match nmRemove st.map kb.1 with
                | (some entry2, map') =>
                    let c := Plru.remove st.lru st.mem entry2.lru_node
                    insertEvictLoop f vlen fuel
                      { st with
                        lru := c.1
                        mem := c.2
                        map := map'
                        freed := entry2.lru_node :: entry2.data :: st.freed }
                | (none, _) => none
              else some (false, st)

/-- `PersistentCacheInsertion::insert` (after `prepare_insert` hashed the
key): run the eviction loop, then allocate the LRU node and the data region,
copy the value, insert at the LRU head and install the map entry. -/
def PCache.insert (st : PCache) (k : Nat) (value : Bytes) (baggage : Nat)
    (f : Nat → Bytes → Bool) : Option (Except PMapError Unit × PCache) :=
  match insertEvictLoop f value.length (st.lru.count + 1) st with
  | none => none
  | some (false, st') => some (.error .ExternalError, st')
  | some (true, st') =>
      let lru_ptr := st'.alloc
      let data_ptr := st'.alloc + 1
      let st1 : PCache := { st' with
        alloc := st'.alloc + 2
        dataMem := fun q => if q = data_ptr then value else st'.dataMem q }
      let c := Plru.insert st1.lru st1.mem lru_ptr k value.length baggage
      some (.ok (), { st1 with
        lru := c.1
        mem := c.2
        map := nmInsert st1.map k
          { size := value.length, lru_node := lru_ptr, data := data_ptr } })

/-! ## Doubly linked list well-formedness -/

/-- Head of `l`, falling back to `nxt`. -/
def headOr (l : List Nat) (nxt : Option Nat) : Option Nat :=
  match l with
  | [] => nxt
  | q :: _ => some q

/-- Last of `l`, falling back to `f`. -/
def lastOr (l : List Nat) (f : Option Nat) : Option Nat :=
  match l.getLast? with
  | some q => some q
  | none => f

/-- Chain segment: the pointers of `l`, in head-to-tail order, are linked in
`mem` with the first node's `fwd` equal to `f` and the last node's `back`
equal to `nxt`. -/
def memSeg (mem : Mem) : Option Nat → List Nat → Option Nat → Prop
  | _, [], _ => True
  | f, p :: rest, nxt =>
      (mem p).fwd = f ∧ (mem p).back = headOr rest nxt ∧ memSeg mem (some p) rest nxt

instance memSeg.dec (mem : Mem) : (f : Option Nat) → (l : List Nat) → (nxt : Option Nat) →
    Decidable (memSeg mem f l nxt)
  | _, [], _ => isTrue trivial
  | f, p :: rest, nxt => by
      have h := memSeg.dec mem (some p) rest nxt
      rw [memSeg]
      infer_instance

/-- Full chain: a segment with no outer neighbours. -/
def memChain (mem : Mem) (f : Option Nat) (l : List Nat) : Prop := memSeg mem f l none

theorem headOr_nil (nxt : Option Nat) : headOr [] nxt = nxt := rfl

theorem headOr_cons (q : Nat) (l : List Nat) (nxt : Option Nat) :
    headOr (q :: l) nxt = some q := rfl

theorem headOr_none (l : List Nat) : headOr l none = l.head? := by
  cases l <;> rfl

theorem headOr_append (xs ys : List Nat) (nxt : Option Nat) :
    headOr (xs ++ ys) nxt = headOr xs (headOr ys nxt) := by
  cases xs <;> rfl

theorem lastOr_nil (f : Option Nat) : lastOr [] f = f := rfl

theorem lastOr_cons (p : Nat) (l : List Nat) (f : Option Nat) :
    lastOr (p :: l) f = lastOr l (some p) := by
  cases l with
  | nil => rfl
  | cons q r =>
      simp [lastOr, List.getLast?_cons_cons,
        List.getLast?_eq_getLast_of_ne_nil (List.cons_ne_nil q r)]

theorem lastOr_none (l : List Nat) : lastOr l none = l.getLast? := by
  unfold lastOr
  cases l.getLast? <;> rfl

theorem lastOr_concat (l : List Nat) (x : Nat) (f : Option Nat) :
    lastOr (l ++ [x]) f = some x := by
  simp [lastOr, List.getLast?_concat]

theorem memSeg_append (mem : Mem) (f : Option Nat) (xs ys : List Nat) (nxt : Option Nat) :
    memSeg mem f (xs ++ ys) nxt ↔
      memSeg mem f xs (headOr ys nxt) ∧ memSeg mem (lastOr xs f) ys nxt := by
  induction xs generalizing f with
  | nil => simp [memSeg, lastOr_nil]
  | cons p xs ih =>
      simp only [List.cons_append, memSeg, headOr_append, lastOr_cons, List.append_eq]
      rw [ih]
      tauto

theorem memSeg_congr (mem mem' : Mem) (f : Option Nat) (l : List Nat) (nxt : Option Nat)
    (hq : ∀ q ∈ l, mem' q = mem q) (h : memSeg mem f l nxt) : memSeg mem' f l nxt := by
  induction l generalizing f with
  | nil => trivial
  | cons p rest ih =>
      obtain ⟨h1, h2, h3⟩ := h
      have hp := hq p (List.mem_cons_self _ _)
      exact ⟨by rw [hp]; exact h1, by rw [hp]; exact h2,
        ih (some p) (fun q hq' => hq q (List.mem_cons_of_mem _ hq')) h3⟩

/-- Sum of the node sizes along a chain. -/
def chainSizes (mem : Mem) (l : List Nat) : Nat :=
  (l.map (fun p => (mem p).size)).sum

/-- Hashes along a chain. -/
def chainHashes (mem : Mem) (l : List Nat) : List Nat :=
  l.map (fun p => (mem p).hash)

/-- The persistent-cache invariant of the specification: the LRU list is
head/tail consistent (the chain links check out and `head`/`tail` are its
ends), `size` is the sum of the entry sizes on the list, and the map entries
and LRU nodes are in bijection (the chain's hashes are a permutation of the
map's keys and every map entry's node is on the chain carrying its key and
size).  `bound` is the allocator invariant making fresh pointers fresh. -/
structure PlruWF (st : PCache) (chain : List Nat) : Prop where
  nodup : chain.Nodup
  head_eq : st.lru.head = chain.head?
  tail_eq : st.lru.tail = chain.getLast?
  links : memChain st.mem none chain
  size_eq : st.lru.size = chainSizes st.mem chain
  count_eq : st.lru.count = chain.length
  keys_nodup : (st.map.map Prod.fst).Nodup
  hashes_perm : (chainHashes st.mem chain).Perm (st.map.map Prod.fst)
  map_matches : ∀ x ∈ st.map, x.2.lru_node ∈ chain ∧
    (st.mem x.2.lru_node).hash = x.1 ∧ (st.mem x.2.lru_node).size = x.2.size
  bound : ∀ q ∈ chain, q < st.alloc

/-- The invariant, existentially over the chain. -/
def PlruConsistent (st : PCache) : Prop := ∃ chain, PlruWF st chain

theorem head?_mem {α : Type} (l : List α) (x : α) (h : l.head? = some x) : x ∈ l := by
  cases l with
  | nil => simp at h
  | cons a t =>
      simp only [List.head?_cons, Option.some.injEq] at h
      rw [← h]
      exact List.mem_cons_self _ _

theorem head?_append_headOr (xs ys : List Nat) :
    (xs ++ ys).head? = headOr xs ys.head? := by
  cases xs <;> rfl

theorem head?_eq_headOr (l : List Nat) : l.head? = headOr l none := by
  cases l <;> rfl

theorem cut_case_singleton (l : Plru) (mem : Mem) (p : Nat)
    (hhead : l.head = some p) (htail : l.tail = some p)
    (hfwd : (mem p).fwd = none) (hback : (mem p).back = none) :
    cut_node_and_stitch l mem p
      = ({ l with tail := none, head := none },
         mupdate mem p (fun n => { n with fwd := none, back := none })) := by
  simp only [cut_node_and_stitch, hfwd, hback, hhead, htail, if_pos]

theorem cut_case_head (l : Plru) (mem : Mem) (p y : Nat)
    (hhead : l.head = some p) (htail : ¬ l.tail = some p)
    (hfwd : (mem p).fwd = none) (hback : (mem p).back = some y) (hpy : p ≠ y) :
    cut_node_and_stitch l mem p
      = ({ l with tail := l.tail, head := some y },
         mupdate (mupdate mem y (fun n => { n with fwd := none })) p
           (fun n => { n with fwd := none, back := none })) := by
  have hmy : mupdate mem y (fun n => { n with fwd := none }) p = mem p :=
    mupdate_other _ _ _ _ hpy
  simp only [cut_node_and_stitch, hfwd, hback, hhead, htail, if_neg, if_pos, hmy,
    not_false_iff]

theorem cut_case_tail (l : Plru) (mem : Mem) (p xl : Nat)
    (hhead : ¬ l.head = some p) (htail : l.tail = some p)
    (hfwd : (mem p).fwd = some xl) (hback : (mem p).back = none) (hpxl : p ≠ xl) :
    cut_node_and_stitch l mem p
      = ({ l with tail := some xl, head := l.head },
         mupdate (mupdate mem xl (fun n => { n with back := none })) p
           (fun n => { n with fwd := none, back := none })) := by
  have hmx : mupdate mem xl (fun n => { n with back := none }) p = mem p :=
    mupdate_other _ _ _ _ hpxl
  simp only [cut_node_and_stitch, hfwd, hback, hhead, htail, if_neg, if_pos, hmx,
    not_false_iff]

theorem cut_case_middle (l : Plru) (mem : Mem) (p xl y : Nat)
    (hhead : ¬ l.head = some p) (htail : ¬ l.tail = some p)
    (hfwd : (mem p).fwd = some xl) (hback : (mem p).back = some y) (hpxl : p ≠ xl) :
    cut_node_and_stitch l mem p
      = ({ l with tail := l.tail, head := l.head },
         mupdate (mupdate (mupdate mem xl (fun n => { n with back := some y })) y
             (fun n => { n with fwd := some xl })) p
           (fun n => { n with fwd := none, back := none })) := by
  have hmx : mupdate mem xl (fun n => { n with back := some y }) p = mem p :=
    mupdate_other _ _ _ _ hpxl
  simp only [cut_node_and_stitch, hfwd, hback, hhead, htail, if_neg, if_pos, hmx,
    not_false_iff]

theorem mupdate_fields (mem : Mem) (p : Nat) (f : PlruNode → PlruNode)
    (hf : ∀ n, (f n).size = n.size ∧ (f n).hash = n.hash ∧ (f n).baggage = n.baggage)
    (q : Nat) :
    ((mupdate mem p f) q).size = (mem q).size ∧
    ((mupdate mem p f) q).hash = (mem q).hash ∧
    ((mupdate mem p f) q).baggage = (mem q).baggage := by
  by_cases h : q = p
  · subst h
    rw [mupdate_same]
    exact hf (mem q)
  · rw [mupdate_other _ _ _ _ h]
    exact ⟨rfl, rfl, rfl⟩

theorem cut_spec (l : Plru) (mem : Mem) (p : Nat) (xs ys : List Nat)
    (hnd : (xs ++ p :: ys).Nodup)
    (hhead : l.head = (xs ++ p :: ys).head?)
    (htail : l.tail = (xs ++ p :: ys).getLast?)
    (hchain : memChain mem none (xs ++ p :: ys)) :
    memChain (cut_node_and_stitch l mem p).2 none (xs ++ ys) ∧
    (cut_node_and_stitch l mem p).1.head = (xs ++ ys).head? ∧
    (cut_node_and_stitch l mem p).1.tail = (xs ++ ys).getLast? ∧
    (∀ q, ((cut_node_and_stitch l mem p).2 q).size = (mem q).size ∧
      ((cut_node_and_stitch l mem p).2 q).hash = (mem q).hash ∧
      ((cut_node_and_stitch l mem p).2 q).baggage = (mem q).baggage) ∧
    ((cut_node_and_stitch l mem p).2 p).fwd = none ∧
    ((cut_node_and_stitch l mem p).2 p).back = none ∧
    (cut_node_and_stitch l mem p).1.size = l.size ∧
    (cut_node_and_stitch l mem p).1.count = l.count ∧
    (cut_node_and_stitch l mem p).1.capacity = l.capacity := by
  rw [List.nodup_append] at hnd
  obtain ⟨hnd_xs, hnd_pys, hdisj⟩ := hnd
  rw [List.nodup_cons] at hnd_pys
  obtain ⟨hp_ys, hnd_ys⟩ := hnd_pys
  have hp_xs : p ∉ xs := fun hmem => hdisj hmem (List.mem_cons_self _ _)
  have hsplit := (memSeg_append mem none xs (p :: ys) none).mp hchain
  have hxs : memSeg mem none xs (some p) := hsplit.1
  obtain ⟨hp_fwd, hp_back, hys⟩ := hsplit.2
  rcases List.eq_nil_or_concat xs with rfl | ⟨xs', xl, hxseq⟩
  · rw [lastOr_nil] at hp_fwd
    cases ys with
    | nil =>
        have hh : l.head = some p := by simpa using hhead
        have ht : l.tail = some p := by simpa using htail
        have hpb : (mem p).back = none := hp_back
        rw [cut_case_singleton l mem p hh ht hp_fwd hpb]
        dsimp only
        refine ⟨trivial, rfl, rfl, ?_, ?_, ?_, rfl, rfl, rfl⟩
        · exact fun q => mupdate_fields mem p
            (fun n => { n with fwd := none, back := none }) (fun n => ⟨rfl, rfl, rfl⟩) q
        · rw [mupdate_same]
        · rw [mupdate_same]
    | cons y ys' =>
        have hh : l.head = some p := by simpa using hhead
        have hpb : (mem p).back = some y := hp_back
        have hpy : p ≠ y := fun h => hp_ys (by rw [h]; exact List.mem_cons_self _ _)
        have htv : l.tail = (y :: ys').getLast? := by
          rw [htail]
          simp [List.getLast?_cons_cons]
        have ht : ¬ l.tail = some p := by
          intro heq
          rw [htv, List.getLast?_eq_getLast_of_ne_nil (List.cons_ne_nil _ _)] at heq
          have hmem := List.getLast_mem (List.cons_ne_nil y ys')
          rw [Option.some.injEq] at heq
          rw [heq] at hmem
          exact hp_ys hmem
        obtain ⟨hy_fwd, hy_back, hys'⟩ := hys
        rw [cut_case_head l mem p y hh ht hp_fwd hpb hpy]
        dsimp only
        have hM3y : (mupdate (mupdate mem y (fun n => { n with fwd := none })) p
            (fun n => { n with fwd := none, back := none })) y
            = { mem y with fwd := none } := by
          rw [mupdate_other _ _ _ _ (fun h => hpy h.symm), mupdate_same]
        refine ⟨?_, rfl, ?_, ?_, ?_, ?_, rfl, rfl, rfl⟩
        · refine ⟨by rw [hM3y], by rw [hM3y]; exact hy_back, ?_⟩
          refine memSeg_congr mem _ (some y) ys' none ?_ hys'
          intro q hq
          have hq_ne_p : q ≠ p := fun h => hp_ys (by rw [← h]; exact List.mem_cons_of_mem _ hq)
          have hq_ne_y : q ≠ y := fun h => (List.nodup_cons.mp hnd_ys).1 (by rw [← h]; exact hq)
          rw [mupdate_other _ _ _ _ hq_ne_p, mupdate_other _ _ _ _ hq_ne_y]
        · rw [htv]
          rfl
        · intro q
          have h1 := mupdate_fields mem y (fun n => { n with fwd := none })
            (fun n => ⟨rfl, rfl, rfl⟩) q
          have h2 := mupdate_fields (mupdate mem y (fun n => { n with fwd := none })) p
            (fun n => { n with fwd := none, back := none }) (fun n => ⟨rfl, rfl, rfl⟩) q
          exact ⟨h2.1.trans h1.1, h2.2.1.trans h1.2.1, h2.2.2.trans h1.2.2⟩
        · rw [mupdate_same]
        · rw [mupdate_same]
  · rw [List.concat_eq_append] at hxseq
    subst hxseq
    have hxl_mem : xl ∈ xs' ++ [xl] := List.mem_append_right _ (List.mem_singleton.mpr rfl)
    have hpxl : p ≠ xl := fun h => hp_xs (by rw [h]; exact hxl_mem)
    have hxl_nys : xl ∉ p :: ys := fun h => hdisj hxl_mem h
    rw [lastOr_concat] at hp_fwd
    have hxs2 := (memSeg_append mem none xs' [xl] (some p)).mp hxs
    have hxs1 : memSeg mem none xs' (some xl) := hxs2.1
    obtain ⟨hxl_fwd, hxl_back, -⟩ := hxs2.2
    rw [List.nodup_append] at hnd_xs
    obtain ⟨hnd_xs', -, hdisj_xs⟩ := hnd_xs
    have hxl_nxs' : ∀ q ∈ xs', q ≠ xl := by
      intro q hq h
      exact hdisj_xs hq (by rw [h]; exact List.mem_singleton.mpr rfl)
    have hh : ¬ l.head = some p := by
      intro heq
      rw [hhead] at heq
      rw [head?_append_headOr] at heq
      cases xs' with
      | nil =>
          simp [headOr] at heq
          exact hpxl heq.symm
      | cons a t =>
          simp [headOr] at heq
          exact hp_xs (by rw [heq]; exact List.mem_cons_self _ _)
    cases ys with
    | nil =>
        have hpb : (mem p).back = none := hp_back
        have ht : l.tail = some p := by
          rw [htail]
          show ((xs' ++ [xl]) ++ [p]).getLast? = some p
          exact List.getLast?_concat _
        rw [cut_case_tail l mem p xl hh ht hp_fwd hpb hpxl]
        dsimp only
        have hM3xl : (mupdate (mupdate mem xl (fun n => { n with back := none })) p
            (fun n => { n with fwd := none, back := none })) xl
            = { mem xl with back := none } := by
          rw [mupdate_other _ _ _ _ (fun h => hpxl h.symm), mupdate_same]
        refine ⟨?_, ?_, ?_, ?_, ?_, ?_, rfl, rfl, rfl⟩
        · rw [List.append_nil]
          refine (memSeg_append _ none xs' [xl] none).mpr ⟨?_, ?_⟩
          · refine memSeg_congr mem _ none xs' _ ?_ hxs1
            intro q hq
            have hq_ne_p : q ≠ p := fun h => hp_xs (by rw [← h]; exact List.mem_append_left _ hq)
            have hq_ne_xl : q ≠ xl := hxl_nxs' q hq
            rw [mupdate_other _ _ _ _ hq_ne_p, mupdate_other _ _ _ _ hq_ne_xl]
          · exact ⟨by rw [hM3xl]; exact hxl_fwd, by rw [hM3xl]; rfl, trivial⟩
        · rw [List.append_nil, hhead]
          cases xs' <;> rfl
        · rw [List.append_nil]
          show some xl = (xs' ++ [xl]).getLast?
          rw [List.getLast?_concat]
        · intro q
          have h1 := mupdate_fields mem xl (fun n => { n with back := none })
            (fun n => ⟨rfl, rfl, rfl⟩) q
          have h2 := mupdate_fields (mupdate mem xl (fun n => { n with back := none })) p
            (fun n => { n with fwd := none, back := none }) (fun n => ⟨rfl, rfl, rfl⟩) q
          exact ⟨h2.1.trans h1.1, h2.2.1.trans h1.2.1, h2.2.2.trans h1.2.2⟩
        · rw [mupdate_same]
        · rw [mupdate_same]
    | cons y ys' =>
        have hpb : (mem p).back = some y := hp_back
        have hpy : p ≠ y := fun h => hp_ys (by rw [h]; exact List.mem_cons_self _ _)
        have hxly : xl ≠ y := fun h => hxl_nys (by rw [h]; exact List.mem_cons_of_mem _ (List.mem_cons_self _ _))
        have htv : l.tail = (y :: ys').getLast? := by
          rw [htail, List.getLast?_append, List.getLast?_cons_cons,
            List.getLast?_eq_getLast_of_ne_nil (List.cons_ne_nil y ys')]
          rfl
        have ht : ¬ l.tail = some p := by
          intro heq
          rw [htv, List.getLast?_eq_getLast_of_ne_nil (List.cons_ne_nil _ _)] at heq
          have hmem := List.getLast_mem (List.cons_ne_nil y ys')
          rw [Option.some.injEq] at heq
          rw [heq] at hmem
          exact hp_ys hmem
        obtain ⟨hy_fwd, hy_back, hys'⟩ := hys
        rw [cut_case_middle l mem p xl y hh ht hp_fwd hpb hpxl]
        dsimp only
        have hM3xl : (mupdate (mupdate (mupdate mem xl (fun n => { n with back := some y })) y
            (fun n => { n with fwd := some xl })) p
            (fun n => { n with fwd := none, back := none })) xl
            = { mem xl with back := some y } := by
          rw [mupdate_other _ _ _ _ (fun h => hpxl h.symm),
            mupdate_other _ _ _ _ (fun h => hxly h), mupdate_same]
        have hM3y : (mupdate (mupdate (mupdate mem xl (fun n => { n with back := some y })) y
            (fun n => { n with fwd := some xl })) p
            (fun n => { n with fwd := none, back := none })) y
            = { mem y with fwd := some xl } := by
          rw [mupdate_other _ _ _ _ (fun h => hpy h.symm), mupdate_same,
            mupdate_other _ _ _ _ (fun h => hxly h.symm)]
        refine ⟨?_, ?_, ?_, ?_, ?_, ?_, rfl, rfl, rfl⟩
        · refine (memSeg_append _ none (xs' ++ [xl]) (y :: ys') none).mpr ⟨?_, ?_⟩
          · refine (memSeg_append _ none xs' [xl] _).mpr ⟨?_, ?_⟩
            · refine memSeg_congr mem _ none xs' _ ?_ hxs1
              intro q hq
              have hq_ne_p : q ≠ p := fun h => hp_xs (by rw [← h]; exact List.mem_append_left _ hq)
              have hq_ne_xl : q ≠ xl := hxl_nxs' q hq
              have hq_ne_y : q ≠ y := fun h => hdisj (List.mem_append_left _ hq)
                (by rw [h]; exact List.mem_cons_of_mem _ (List.mem_cons_self _ _))
              rw [mupdate_other _ _ _ _ hq_ne_p, mupdate_other _ _ _ _ hq_ne_y,
                mupdate_other _ _ _ _ hq_ne_xl]
            · exact ⟨by rw [hM3xl]; exact hxl_fwd, by rw [hM3xl]; rfl, trivial⟩
          · rw [lastOr_concat]
            refine ⟨by rw [hM3y], by rw [hM3y]; exact hy_back, ?_⟩
            refine memSeg_congr mem _ (some y) ys' none ?_ hys'
            intro q hq
            have hq_ne_p : q ≠ p := fun h => hp_ys (by rw [← h]; exact List.mem_cons_of_mem _ hq)
            have hq_ne_y : q ≠ y := fun h => (List.nodup_cons.mp hnd_ys).1 (by rw [← h]; exact hq)
            have hq_ne_xl : q ≠ xl := fun h => hxl_nys
              (by rw [← h]; exact List.mem_cons_of_mem _ (List.mem_cons_of_mem _ hq))
            rw [mupdate_other _ _ _ _ hq_ne_p, mupdate_other _ _ _ _ hq_ne_y,
              mupdate_other _ _ _ _ hq_ne_xl]
        · rw [hhead]
          cases xs' <;> rfl
        · rw [htv, List.getLast?_append,
            List.getLast?_eq_getLast_of_ne_nil (List.cons_ne_nil y ys')]
          rfl
        · intro q
          have h1 := mupdate_fields mem xl (fun n => { n with back := some y })
            (fun n => ⟨rfl, rfl, rfl⟩) q
          have h2 := mupdate_fields (mupdate mem xl (fun n => { n with back := some y })) y
            (fun n => { n with fwd := some xl }) (fun n => ⟨rfl, rfl, rfl⟩) q
          have h3 := mupdate_fields (mupdate (mupdate mem xl (fun n => { n with back := some y })) y
            (fun n => { n with fwd := some xl })) p
            (fun n => { n with fwd := none, back := none }) (fun n => ⟨rfl, rfl, rfl⟩) q
          exact ⟨h3.1.trans (h2.1.trans h1.1), h3.2.1.trans (h2.2.1.trans h1.2.1),
            h3.2.2.trans (h2.2.2.trans h1.2.2)⟩
        · rw [mupdate_same]
        · rw [mupdate_same]

theorem chainSizes_congr (mem mem' : Mem) (l : List Nat)
    (h : ∀ q, (mem' q).size = (mem q).size) : chainSizes mem' l = chainSizes mem l := by
  unfold chainSizes
  congr 1
  exact List.map_congr_left (fun q _ => h q)

theorem chainHashes_congr (mem mem' : Mem) (l : List Nat)
    (h : ∀ q, (mem' q).hash = (mem q).hash) : chainHashes mem' l = chainHashes mem l := by
  unfold chainHashes
  exact List.map_congr_left (fun q _ => h q)

theorem chainSizes_append (mem : Mem) (a b : List Nat) :
    chainSizes mem (a ++ b) = chainSizes mem a + chainSizes mem b := by
  simp [chainSizes]

theorem chainSizes_cons (mem : Mem) (p : Nat) (l : List Nat) :
    chainSizes mem (p :: l) = (mem p).size + chainSizes mem l := by
  simp [chainSizes]

theorem touch_spec (l : Plru) (mem : Mem) (p : Nat) (xs ys : List Nat)
    (hnd : (xs ++ p :: ys).Nodup)
    (hhead : l.head = (xs ++ p :: ys).head?)
    (htail : l.tail = (xs ++ p :: ys).getLast?)
    (hchain : memChain mem none (xs ++ p :: ys)) :
    ∃ l' mem', Plru.touch l mem p = some (l', mem') ∧
      memChain mem' none (p :: (xs ++ ys)) ∧
      l'.head = some p ∧
      l'.tail = (p :: (xs ++ ys)).getLast? ∧
      (∀ q, (mem' q).size = (mem q).size ∧ (mem' q).hash = (mem q).hash ∧
        (mem' q).baggage = (mem q).baggage) ∧
      l'.size = l.size ∧ l'.count = l.count ∧ l'.capacity = l.capacity := by
  cases xs with
  | nil =>
      have hh : l.head = some p := by simpa using hhead
      refine ⟨l, mem, ?_, hchain, hh, htail, fun q => ⟨rfl, rfl, rfl⟩, rfl, rfl, rfl⟩
      rw [Plru.touch, if_pos hh]
  | cons x0 xs0 =>
      have hnd' := hnd
      rw [List.nodup_append] at hnd'
      obtain ⟨hnd_xs, hnd_pys, hdisj⟩ := hnd'
      have hp_xs : p ∉ x0 :: xs0 := fun hmem => hdisj hmem (List.mem_cons_self _ _)
      have hp_ys : p ∉ ys := fun hmem =>
        (List.nodup_cons.mp (List.nodup_append.mp hnd).2.1).1 hmem
      have hx0p : ¬ l.head = some p := by
        intro heq
        rw [hhead] at heq
        simp only [List.cons_append, List.head?_cons, Option.some.injEq] at heq
        exact hp_xs (by rw [← heq]; exact List.mem_cons_self _ _)
      obtain ⟨hc_chain, hc_head, hc_tail, hc_fields, hc_pfwd, hc_pback, hc_size,
        hc_count, hc_cap⟩ := cut_spec l mem p (x0 :: xs0) ys hnd hhead htail hchain
      have hx0_ne_p : x0 ≠ p := fun h => hp_xs (by rw [h]; exact List.mem_cons_self _ _)
      have hch : (cut_node_and_stitch l mem p).1.head = some x0 := by
        rw [hc_head]
        rfl
      obtain ⟨hc1, hc2, hc3⟩ : memSeg (cut_node_and_stitch l mem p).2 none
          (x0 :: (xs0 ++ ys)) none := hc_chain
      refine ⟨{ (cut_node_and_stitch l mem p).1 with head := some p },
        mupdate (mupdate (cut_node_and_stitch l mem p).2 x0
          (fun n => { n with fwd := some p })) p
          (fun n => { n with back := some x0 }),
        ?_, ?_, rfl, ?_, ?_, ?_, ?_, ?_⟩
      · rw [Plru.touch, if_neg hx0p]
        dsimp only
        rw [hch]
      · -- new chain p :: x0 :: (xs0 ++ ys)
        refine ⟨?_, ?_, ?_, ?_⟩
        · -- (mem3 p).fwd = none
          rw [mupdate_same]
          show (mupdate (cut_node_and_stitch l mem p).2 x0
            (fun n => { n with fwd := some p }) p).fwd = none
          rw [mupdate_other _ _ _ _ (fun h => hx0_ne_p h.symm)]
          exact hc_pfwd
        · -- (mem3 p).back = headOr (x0 :: (xs0 ++ ys)) none
          rw [mupdate_same]
          rfl
        · -- (mem3 x0).fwd = some p
          rw [mupdate_other _ _ _ _ hx0_ne_p, mupdate_same]
        · constructor
          · -- (mem3 x0).back
            rw [mupdate_other _ _ _ _ hx0_ne_p, mupdate_same]
            exact hc2
          · -- rest
            refine memSeg_congr _ _ (some x0) (xs0 ++ ys) none ?_ hc3
            intro q hq
            have hq_ne_p : q ≠ p := by
              intro h
              subst h
              rcases List.mem_append.mp hq with h' | h'
              · exact hp_xs (List.mem_cons_of_mem _ h')
              · exact hp_ys h'
            have hq_ne_x0 : q ≠ x0 := by
              intro h
              subst h
              rcases List.mem_append.mp hq with h' | h'
              · exact (List.nodup_cons.mp hnd_xs).1 h'
              · exact hdisj (List.mem_cons_self _ _) (List.mem_cons_of_mem _ h')
            rw [mupdate_other _ _ _ _ hq_ne_p, mupdate_other _ _ _ _ hq_ne_x0]
      · -- tail
        show (cut_node_and_stitch l mem p).1.tail = _
        rw [hc_tail]
        rfl
      · intro q
        have h2 := mupdate_fields (cut_node_and_stitch l mem p).2 x0
          (fun n => { n with fwd := some p }) (fun n => ⟨rfl, rfl, rfl⟩) q
        have h3 := mupdate_fields (mupdate (cut_node_and_stitch l mem p).2 x0
          (fun n => { n with fwd := some p })) p
          (fun n => { n with back := some x0 })
          (fun n => ⟨rfl, rfl, rfl⟩) q
        have h1 := hc_fields q
        exact ⟨h3.1.trans (h2.1.trans h1.1), h3.2.1.trans (h2.2.1.trans h1.2.1),
          h3.2.2.trans (h2.2.2.trans h1.2.2)⟩
      · exact hc_size
      · exact hc_count
      · exact hc_cap

theorem plru_insert_spec (l : Plru) (mem : Mem) (p hash size baggage : Nat)
    (chain : List Nat) (hp : p ∉ chain) (hnd : chain.Nodup)
    (hhead : l.head = chain.head?)
    (hchain : memChain mem none chain) :
    ∃ l' mem', Plru.insert l mem p hash size baggage = (l', mem') ∧
      memChain mem' none (p :: chain) ∧
      l'.head = some p ∧
      l'.tail = (if chain.isEmpty then some p else l.tail) ∧
      (∀ q, q ≠ p → (mem' q).size = (mem q).size ∧ (mem' q).hash = (mem q).hash ∧
        (mem' q).baggage = (mem q).baggage) ∧
      (mem' p).size = size ∧ (mem' p).hash = hash ∧ (mem' p).baggage = baggage ∧
      l'.size = l.size + size ∧ l'.count = l.count + 1 ∧ l'.capacity = l.capacity := by
  cases chain with
  | nil =>
      have hh : l.head = none := by simpa using hhead
      refine ⟨{ l with
                head := some p
                tail := some p
                size := l.size + size
                count := l.count + 1 },
        mupdate mem p (fun _ =>
          { fwd := none, back := none, size := size, hash := hash, baggage := baggage }),
        ?_, ?_, rfl, rfl, ?_, ?_, ?_, ?_, rfl, rfl, rfl⟩
      · rw [Plru.insert, hh]
      · exact ⟨by rw [mupdate_same], by rw [mupdate_same]; rfl, trivial⟩
      · intro q hq
        rw [mupdate_other _ _ _ _ hq]
        exact ⟨rfl, rfl, rfl⟩
      · rw [mupdate_same]
      · rw [mupdate_same]
      · rw [mupdate_same]
  | cons h0 rest =>
      have hh : l.head = some h0 := by simpa using hhead
      have hph0 : p ≠ h0 := fun h => hp (by rw [h]; exact List.mem_cons_self _ _)
      obtain ⟨hh0_fwd, hh0_back, hrest⟩ := hchain
      refine ⟨{ l with
                head := some p
                size := l.size + size
                count := l.count + 1 },
        mupdate (mupdate mem p (fun _ =>
          { fwd := none, back := some h0, size := size, hash := hash, baggage := baggage }))
          h0 (fun n => { n with fwd := some p }),
        ?_, ?_, rfl, ?_, ?_, ?_, ?_, ?_, rfl, rfl, rfl⟩
      · rw [Plru.insert, hh]
      · refine ⟨?_, ?_, ?_, ?_, ?_⟩
        · rw [mupdate_other _ _ _ _ hph0, mupdate_same]
        · rw [mupdate_other _ _ _ _ hph0, mupdate_same]
          rfl
        · rw [mupdate_same]
        · rw [mupdate_same]
          show (mupdate mem p _ h0).back = _
          rw [mupdate_other _ _ _ _ (fun h => hph0 h.symm)]
          exact hh0_back
        · refine memSeg_congr _ _ (some h0) rest none ?_ hrest
          intro q hq
          have hq_ne_p : q ≠ p := fun h => hp (by rw [← h]; exact List.mem_cons_of_mem _ hq)
          have hq_ne_h0 : q ≠ h0 := fun h =>
            (List.nodup_cons.mp hnd).1 (by rw [← h]; exact hq)
          rw [mupdate_other _ _ _ _ hq_ne_h0, mupdate_other _ _ _ _ hq_ne_p]
      · rfl
      · intro q hq
        by_cases hq0 : q = h0
        · subst hq0
          rw [mupdate_same]
          refine ⟨?_, ?_, ?_⟩ <;>
            · show _ = _
              rw [mupdate_other _ _ _ _ hq]
        · rw [mupdate_other _ _ _ _ hq0, mupdate_other _ _ _ _ hq]
          exact ⟨rfl, rfl, rfl⟩
      · rw [mupdate_other _ _ _ _ hph0, mupdate_same]
      · rw [mupdate_other _ _ _ _ hph0, mupdate_same]
      · rw [mupdate_other _ _ _ _ hph0, mupdate_same]

theorem plru_remove_spec (l : Plru) (mem : Mem) (p : Nat) (xs ys : List Nat)
    (hnd : (xs ++ p :: ys).Nodup)
    (hhead : l.head = (xs ++ p :: ys).head?)
    (htail : l.tail = (xs ++ p :: ys).getLast?)
    (hchain : memChain mem none (xs ++ p :: ys)) :
    ∃ l' mem', Plru.remove l mem p = (l', mem') ∧
      memChain mem' none (xs ++ ys) ∧
      l'.head = (xs ++ ys).head? ∧
      l'.tail = (xs ++ ys).getLast? ∧
      (∀ q, (mem' q).size = (mem q).size ∧ (mem' q).hash = (mem q).hash ∧
        (mem' q).baggage = (mem q).baggage) ∧
      l'.size = l.size - (mem p).size ∧
      l'.count = l.count - 1 ∧ l'.capacity = l.capacity := by
  obtain ⟨hc_chain, hc_head, hc_tail, hc_fields, hc_pfwd, hc_pback, hc_size,
    hc_count, hc_cap⟩ := cut_spec l mem p xs ys hnd hhead htail hchain
  refine ⟨_, _, rfl, hc_chain, hc_head, hc_tail, hc_fields, ?_, ?_, hc_cap⟩
  · show (cut_node_and_stitch l mem p).1.size - _ = _
    rw [hc_size, (hc_fields p).1]
  · show (cut_node_and_stitch l mem p).1.count - 1 = _
    rw [hc_count]

/-! ## Association-list lemmas for the cache map -/

theorem nmGet_cons {α : Type} (x : Nat × α) (rest : List (Nat × α)) (k : Nat) :
    nmGet (x :: rest) k = if x.1 = k then some x.2 else nmGet rest k := by
  unfold nmGet
  by_cases h : x.1 = k
  · rw [List.find?_cons_of_pos _ (by simpa using h), if_pos h]
    rfl
  · rw [List.find?_cons_of_neg _ (by simpa using h), if_neg h]

theorem nmGet_mem {α : Type} (m : List (Nat × α)) (k : Nat) (e : α)
    (h : nmGet m k = some e) : (k, e) ∈ m := by
  induction m with
  | nil => simp [nmGet] at h
  | cons x rest ih =>
      rw [nmGet_cons] at h
      by_cases hx : x.1 = k
      · rw [if_pos hx] at h
        simp only [Option.some.injEq] at h
        exact List.mem_cons.mpr (Or.inl (by rw [← hx, ← h]))
      · rw [if_neg hx] at h
        exact List.mem_cons_of_mem _ (ih h)

theorem nmGet_of_mem {α : Type} (m : List (Nat × α)) (k : Nat) (e : α)
    (hnd : (m.map Prod.fst).Nodup) (hmem : (k, e) ∈ m) : nmGet m k = some e := by
  induction m with
  | nil => cases hmem
  | cons x rest ih =>
      rw [List.map_cons, List.nodup_cons] at hnd
      rw [nmGet_cons]
      rcases List.mem_cons.mp hmem with heq | hmem'
      · rw [← heq]
        rw [if_pos rfl]
      · have hx : ¬ x.1 = k := by
          intro h
          exact hnd.1 (h ▸ List.mem_map.mpr ⟨(k, e), hmem', rfl⟩)
        rw [if_neg hx]
        exact ih hnd.2 hmem'

theorem nmGet_none_iff {α : Type} (m : List (Nat × α)) (k : Nat) :
    nmGet m k = none ↔ k ∉ m.map Prod.fst := by
  induction m with
  | nil => simp [nmGet]
  | cons x rest ih =>
      rw [nmGet_cons, List.map_cons]
      by_cases hx : x.1 = k
      · rw [if_pos hx]
        simp [hx]
      · rw [if_neg hx]
        rw [ih]
        simp only [List.mem_cons]
        constructor
        · rintro h (h1 | h2)
          · exact hx h1.symm
          · exact h h2
        · intro h h2
          exact h (Or.inr h2)

theorem nmRemove_cons {α : Type} (x : Nat × α) (rest : List (Nat × α)) (k : Nat) :
    nmRemove (x :: rest) k =
      if k = x.1 then (some x.2, rest)
      else ((nmRemove rest k).1, x :: (nmRemove rest k).2) := by
  obtain ⟨x1, x2⟩ := x
  rfl

theorem nmRemove_of_mem {α : Type} (m : List (Nat × α)) (k : Nat) (e : α)
    (hnd : (m.map Prod.fst).Nodup) (hmem : (k, e) ∈ m) :
    ∃ pre post, m = pre ++ (k, e) :: post ∧
      nmRemove m k = (some e, pre ++ post) ∧
      k ∉ (pre ++ post).map Prod.fst := by
  induction m with
  | nil => cases hmem
  | cons x rest ih =>
      rw [List.map_cons, List.nodup_cons] at hnd
      rcases List.mem_cons.mp hmem with heq | hmem'
      · refine ⟨[], rest, by rw [← heq]; rfl, ?_, ?_⟩
        · rw [nmRemove_cons, if_pos (by rw [← heq])]
          rw [← heq]
          rfl
        · simpa using (by rw [← heq] at hnd; simpa using hnd.1 : k ∉ rest.map Prod.fst)
      · have hx : ¬ k = x.1 := by
          intro h
          exact hnd.1 (h ▸ List.mem_map.mpr ⟨(k, e), hmem', rfl⟩)
        obtain ⟨pre, post, hsplit, hrm, hnk⟩ := ih hnd.2 hmem'
        refine ⟨x :: pre, post, by rw [hsplit, List.cons_append], ?_, ?_⟩
        · rw [nmRemove_cons, if_neg hx, hrm]
          rfl
        · simp only [List.cons_append, List.map_cons, List.mem_cons]
          rintro (h | h)
          · exact hx h
          · exact hnk h

theorem nmInsert_keys_perm {α : Type} (m : List (Nat × α)) (k : Nat) (v : α)
    (hk : k ∉ m.map Prod.fst) :
    ((nmInsert m k v).map Prod.fst).Perm (k :: m.map Prod.fst) := by
  induction m with
  | nil => simp [nmInsert]
  | cons x rest ih =>
      obtain ⟨x1, x2⟩ := x
      rw [List.map_cons, List.mem_cons] at hk
      push_neg at hk
      show ((nmInsert ((x1, x2) :: rest) k v).map Prod.fst).Perm _
      unfold nmInsert
      rw [if_neg (fun h => hk.1 h)]
      by_cases h2 : k < x1
      · rw [if_pos h2]
        simp
      · rw [if_neg h2]
        simp only [List.map_cons]
        exact ((ih hk.2).cons x1).trans (List.Perm.swap _ _ _)

theorem nmInsert_mem_iff {α : Type} (m : List (Nat × α)) (k : Nat) (v : α)
    (hk : k ∉ m.map Prod.fst) (x : Nat × α) :
    x ∈ nmInsert m k v ↔ x = (k, v) ∨ x ∈ m := by
  induction m with
  | nil => simp [nmInsert]
  | cons y rest ih =>
      obtain ⟨y1, y2⟩ := y
      rw [List.map_cons, List.mem_cons] at hk
      push_neg at hk
      unfold nmInsert
      rw [if_neg (fun h => hk.1 h)]
      by_cases h2 : k < y1
      · rw [if_pos h2]
        simp only [List.mem_cons]
      · rw [if_neg h2]
        simp only [List.mem_cons, ih hk.2]
        tauto

theorem chainSizes_perm (mem : Mem) {a b : List Nat} (h : a.Perm b) :
    chainSizes mem a = chainSizes mem b := (h.map _).sum_eq

/-! ## Cache-level invariant preservation -/

theorem get_spec (st : PCache) (chain : List Nat) (k : Nat) (e : PCacheMapEntry)
    (hwf : PlruWF st chain) (hmem : (k, e) ∈ st.map) :
    ∃ st' xs ys, chain = xs ++ e.lru_node :: ys ∧
      PCache.get st k = some (.ok (st.dataMem e.data), st') ∧
      st'.map = st.map ∧ st'.dataMem = st.dataMem ∧ st'.alloc = st.alloc ∧
      st'.freed = st.freed ∧ st'.lru.head = some e.lru_node ∧
      PlruWF st' (e.lru_node :: (xs ++ ys)) := by
  have hget : nmGet st.map k = some e := nmGet_of_mem _ _ _ hwf.keys_nodup hmem
  have hnode : e.lru_node ∈ chain := (hwf.map_matches (k, e) hmem).1
  obtain ⟨xs, ys, hc⟩ := List.append_of_mem hnode
  subst hc
  obtain ⟨l', mem', htch, hchain', hhead', htail', hfields, hsz, hcnt, hcap⟩ :=
    touch_spec st.lru st.mem e.lru_node xs ys hwf.nodup hwf.head_eq hwf.tail_eq hwf.links
  have hperm : (xs ++ e.lru_node :: ys).Perm (e.lru_node :: (xs ++ ys)) :=
    List.perm_middle
  refine ⟨{ st with lru := l', mem := mem' }, xs, ys, rfl, ?_, rfl, rfl, rfl, rfl,
    hhead', ?_⟩
  · rw [PCache.get, hget]
    dsimp only
    rw [htch]
    rfl
  · refine ⟨hperm.nodup_iff.mp hwf.nodup, hhead', htail', hchain', ?_, ?_,
      hwf.keys_nodup, ?_, ?_, ?_⟩
    · show l'.size = _
      rw [hsz, hwf.size_eq, chainSizes_perm st.mem hperm,
        chainSizes_congr st.mem mem' _ (fun q => (hfields q).1)]
    · show l'.count = _
      rw [hcnt, hwf.count_eq, hperm.length_eq]
    · show (chainHashes mem' _).Perm _
      rw [chainHashes_congr st.mem mem' _ (fun q => (hfields q).2.1)]
      exact ((hperm.symm).map _).trans hwf.hashes_perm
    · intro x hx
      obtain ⟨h1, h2, h3⟩ := hwf.map_matches x hx
      refine ⟨hperm.mem_iff.mp h1, ?_, ?_⟩
      · rw [(hfields x.2.lru_node).2.1]
        exact h2
      · rw [(hfields x.2.lru_node).1]
        exact h3
    · intro q hq
      exact hwf.bound q (hperm.mem_iff.mpr hq)

theorem chainHashes_append (mem : Mem) (a b : List Nat) :
    chainHashes mem (a ++ b) = chainHashes mem a ++ chainHashes mem b := by
  simp [chainHashes]

theorem chainHashes_cons (mem : Mem) (p : Nat) (l : List Nat) :
    chainHashes mem (p :: l) = (mem p).hash :: chainHashes mem l := by
  simp [chainHashes]

/-- Removing a mapped entry (by `nmRemove` on the map and `Plru.remove` on its
LRU node) preserves the invariant; the data memory and freed list are
unconstrained. -/
theorem remove_entry_wf (st : PCache) (chain : List Nat) (k : Nat) (e : PCacheMapEntry)
    (hwf : PlruWF st chain) (hmem : (k, e) ∈ st.map) :
    ∃ map' l' mem' xs ys, chain = xs ++ e.lru_node :: ys ∧
      nmRemove st.map k = (some e, map') ∧
      Plru.remove st.lru st.mem e.lru_node = (l', mem') ∧
      (∀ k' e', (k', e') ∈ map' → (k', e') ∈ st.map) ∧
      l'.size = st.lru.size - (st.mem e.lru_node).size ∧
      l'.count = st.lru.count - 1 ∧
      ∀ dm fr, PlruWF
        { lru := l'
          mem := mem'
          map := map'
          dataMem := dm
          alloc := st.alloc
          freed := fr } (xs ++ ys) := by
  obtain ⟨hnode, hhash, hsize⟩ := hwf.map_matches (k, e) hmem
  dsimp only at hnode hhash hsize
  obtain ⟨xs, ys, hc⟩ := List.append_of_mem hnode
  subst hc
  obtain ⟨pre, post, hsplit, hrm, hnk⟩ :=
    nmRemove_of_mem st.map k e hwf.keys_nodup hmem
  obtain ⟨l', mem', hplru, hchain', hhead', htail', hfields, hsz, hcnt, hcap⟩ :=
    plru_remove_spec st.lru st.mem e.lru_node xs ys hwf.nodup hwf.head_eq
      hwf.tail_eq hwf.links
  have hsub : List.Sublist (xs ++ ys) (xs ++ e.lru_node :: ys) :=
    List.Sublist.append_left (List.sublist_cons_self _ _) xs
  have hmsub : List.Sublist (pre ++ post) st.map := by
    rw [hsplit]
    exact List.Sublist.append_left (List.sublist_cons_self _ _) pre
  refine ⟨pre ++ post, l', mem', xs, ys, rfl, hrm, hplru, ?_, hsz, hcnt, ?_⟩
  · intro k' e' hx
    exact hmsub.mem hx
  · intro dm fr
    have hkeys' : ((pre ++ post).map Prod.fst).Nodup :=
      (hmsub.map Prod.fst).nodup hwf.keys_nodup
    have hperm' : (chainHashes mem' (xs ++ ys)).Perm ((pre ++ post).map Prod.fst) := by
      rw [chainHashes_congr st.mem mem' _ (fun q => (hfields q).2.1)]
      have hold := hwf.hashes_perm
      rw [hsplit] at hold
      rw [chainHashes_append, chainHashes_cons, hhash] at hold
      rw [List.map_append, List.map_cons] at hold
      have p1 : (chainHashes st.mem xs ++ k :: chainHashes st.mem ys).Perm
          (k :: (chainHashes st.mem xs ++ chainHashes st.mem ys)) := List.perm_middle
      have p2 : (pre.map Prod.fst ++ k :: post.map Prod.fst).Perm
          (k :: (pre.map Prod.fst ++ post.map Prod.fst)) := List.perm_middle
      have := (p1.symm.trans hold).trans p2
      have hfin := this.cons_inv
      rw [chainHashes_append, List.map_append]
      exact hfin
    refine ⟨hwf.nodup.sublist hsub, hhead', htail', hchain', ?_, ?_, hkeys', hperm', ?_, ?_⟩
    · show l'.size = _
      rw [hsz, hwf.size_eq]
      rw [chainSizes_append, chainSizes_cons, chainSizes_append]
      rw [chainSizes_congr st.mem mem' xs (fun q => (hfields q).1),
        chainSizes_congr st.mem mem' ys (fun q => (hfields q).1)]
      omega
    · show l'.count = _
      rw [hcnt, hwf.count_eq]
      simp only [List.length_append, List.length_cons]
      omega
    · intro x hx
      have hxm : x ∈ st.map := hmsub.mem hx
      obtain ⟨h1, h2, h3⟩ := hwf.map_matches x hxm
      have hx_ne : x.2.lru_node ≠ e.lru_node := by
        intro heq
        have : x.1 = k := by rw [← h2, heq, hhash]
        apply hnk
        rw [← this]
        exact List.mem_map.mpr ⟨x, hx, rfl⟩
      have hx_chain : x.2.lru_node ∈ xs ++ ys := by
        rcases List.mem_append.mp h1 with h' | h'
        · exact List.mem_append_left _ h'
        · rcases List.mem_cons.mp h' with h'' | h''
          · exact absurd h'' hx_ne
          · exact List.mem_append_right _ h''
      refine ⟨hx_chain, ?_, ?_⟩
      · rw [(hfields x.2.lru_node).2.1]
        exact h2
      · rw [(hfields x.2.lru_node).1]
        exact h3
    · intro q hq
      exact hwf.bound q (hsub.mem hq)

/-- The eviction loop resolves from any list-consistent state with sufficient
fuel, and preserves the invariant; map keys only disappear. -/
theorem insertEvictLoop_wf (f : Nat → Bytes → Bool) (vlen : Nat) :
    ∀ fuel st chain, PlruWF st chain → chain.length < fuel →
    ∃ res st' chain', insertEvictLoop f vlen fuel st = some (res, st') ∧
      PlruWF st' chain' ∧
      (∀ k', k' ∈ st'.map.map Prod.fst → k' ∈ st.map.map Prod.fst) ∧
      st'.alloc = st.alloc := by
  intro fuel
  induction fuel with
  | zero => intro st chain _ h; omega
  | succ n ih =>
      intro st chain hwf hlen
      rw [insertEvictLoop]
      cases hev : st.lru.evict st.mem vlen with
      | none => exact ⟨true, st, chain, rfl, hwf, fun k' h => h, rfl⟩
      | some kb =>
          obtain ⟨key, bg⟩ := kb
          dsimp only
          -- invert the eviction check
          rw [Plru.evict] at hev
          cases htl : st.lru.tail with
          | none => rw [htl] at hev; simp at hev
          | some t =>
              rw [htl] at hev
              dsimp only at hev
              by_cases hcap : st.lru.size + vlen > st.lru.capacity
              · rw [if_pos hcap] at hev
                simp only [Option.some.injEq, Prod.mk.injEq] at hev
                obtain ⟨hkey, hbg⟩ := hev
                have ht_chain : t ∈ chain := by
                  have := hwf.tail_eq
                  rw [htl] at this
                  exact mem_of_getLast?_eq _ _ this.symm
                have hkey_keys : key ∈ st.map.map Prod.fst := by
                  refine hwf.hashes_perm.mem_iff.mp ?_
                  rw [← hkey]
                  exact List.mem_map.mpr ⟨t, ht_chain, rfl⟩
                obtain ⟨x, hx, hx1⟩ := List.mem_map.mp hkey_keys
                have hxmem : (key, x.2) ∈ st.map := by
                  rw [← hx1]
                  exact hx
                have hget : nmGet st.map key = some x.2 :=
                  nmGet_of_mem _ _ _ hwf.keys_nodup hxmem
                have hnode_eq : x.2.lru_node = t := by
                  have hhashes_nd : (chainHashes st.mem chain).Nodup :=
                    hwf.hashes_perm.nodup_iff.mpr hwf.keys_nodup
                  have h1 := (hwf.map_matches (key, x.2) hxmem).1
                  have h2 := (hwf.map_matches (key, x.2) hxmem).2.1
                  dsimp only at h1 h2
                  refine List.inj_on_of_nodup_map hhashes_nd h1 ht_chain ?_
                  rw [h2, hkey]
                rw [hget]
                dsimp only
                cases hfb : f bg (st.dataMem x.2.data) with
                | false =>
                    rw [if_neg (Bool.false_ne_true)]
                    exact ⟨false, st, chain, rfl, hwf, fun k' h => h, rfl⟩
                | true =>
                    rw [if_pos rfl]
                    obtain ⟨map', l', mem', xs, ys, hc, hrm, hplru, hsubset, hsz,
                      hcnt, hwf'⟩ := remove_entry_wf st chain key x.2 hwf hxmem
                    rw [hrm]
                    dsimp only
                    rw [hplru]
                    have hwf1 := hwf' st.dataMem (x.2.lru_node :: x.2.data :: st.freed)
                    have hlen1 : (xs ++ ys).length < n := by
                      have : chain.length = (xs ++ ys).length + 1 := by
                        rw [hc]
                        simp only [List.length_append, List.length_cons]
                        omega
                      omega
                    obtain ⟨res, st', chain', hloop, hwf2, hsub2, hall2⟩ :=
                      ih _ _ hwf1 hlen1
                    refine ⟨res, st', chain', hloop, hwf2, ?_, hall2⟩
                    intro k' h
                    have := hsub2 k' h
                    simp only at this
                    obtain ⟨y, hy, hy1⟩ := List.mem_map.mp this
                    exact List.mem_map.mpr ⟨y, hsubset y.1 y.2 (by simpa using hy), hy1⟩
              · rw [if_neg hcap] at hev
                simp at hev

theorem chainSizes_congr_mem (mem mem' : Mem) (l : List Nat)
    (h : ∀ q ∈ l, (mem' q).size = (mem q).size) :
    chainSizes mem' l = chainSizes mem l := by
  unfold chainSizes
  congr 1
  exact List.map_congr_left h

theorem chainHashes_congr_mem (mem mem' : Mem) (l : List Nat)
    (h : ∀ q ∈ l, (mem' q).hash = (mem q).hash) :
    chainHashes mem' l = chainHashes mem l := by
  unfold chainHashes
  exact List.map_congr_left h

/-- A complete insertion with a fresh key resolves and preserves the
invariant (whether the write-back loop succeeds or aborts). -/
theorem insert_spec_pc (st : PCache) (chain : List Nat) (k : Nat) (v : Bytes)
    (b : Nat) (f : Nat → Bytes → Bool)
    (hwf : PlruWF st chain) (hfresh : k ∉ st.map.map Prod.fst) :
    ∃ r st', PCache.insert st k v b f = some (r, st') ∧ PlruConsistent st' := by
  have hlen : chain.length < st.lru.count + 1 := by
    rw [hwf.count_eq]
    omega
  obtain ⟨res, st1, chain1, hloop, hwf1, hsub1, halloc1⟩ :=
    insertEvictLoop_wf f v.length (st.lru.count + 1) st chain hwf hlen
  rw [PCache.insert, hloop]
  cases res with
  | false => exact ⟨.error .ExternalError, st1, rfl, ⟨chain1, hwf1⟩⟩
  | true =>
      dsimp only
      have hfresh1 : k ∉ st1.map.map Prod.fst := fun h => hfresh (hsub1 k h)
      have hp_chain : st1.alloc ∉ chain1 := fun h =>
        Nat.lt_irrefl _ (hwf1.bound _ h)
      obtain ⟨l', mem', hpl, hchain', hhead', htail', hfields, hpsz, hphash,
        hpbag, hlsz, hlcnt, hlcap⟩ :=
        plru_insert_spec st1.lru st1.mem st1.alloc k v.length b chain1
          hp_chain hwf1.nodup hwf1.head_eq hwf1.links
      rw [hpl]
      refine ⟨.ok (), _, rfl, ⟨st1.alloc :: chain1, ?_⟩⟩
      have hne_of_mem : ∀ q ∈ chain1, q ≠ st1.alloc := by
        intro q hq h
        exact hp_chain (h ▸ hq)
      have hknd : (k :: st1.map.map Prod.fst).Nodup :=
        List.nodup_cons.mpr ⟨hfresh1, hwf1.keys_nodup⟩
      have hkeysperm := nmInsert_keys_perm st1.map k
        (⟨v.length, st1.alloc, st1.alloc + 1⟩ : PCacheMapEntry) hfresh1
      refine ⟨List.nodup_cons.mpr ⟨hp_chain, hwf1.nodup⟩, hhead', ?_, hchain',
        ?_, ?_, ?_, ?_, ?_, ?_⟩
      · show l'.tail = _
        rw [htail']
        cases chain1 with
        | nil => rfl
        | cons c0 rest =>
            rw [List.getLast?_cons_cons]
            exact hwf1.tail_eq
      · show l'.size = _
        rw [hlsz, chainSizes_cons, hpsz, hwf1.size_eq]
        rw [chainSizes_congr_mem st1.mem mem' chain1
          (fun q hq => (hfields q (hne_of_mem q hq)).1)]
        omega
      · show l'.count = _
        rw [hlcnt, hwf1.count_eq, List.length_cons]
      · exact hkeysperm.nodup_iff.mpr hknd
      · rw [chainHashes_cons, hphash]
        rw [chainHashes_congr_mem st1.mem mem' chain1
          (fun q hq => (hfields q (hne_of_mem q hq)).2.1)]
        exact (hwf1.hashes_perm.cons k).trans hkeysperm.symm
      · intro x hx
        rcases (nmInsert_mem_iff st1.map k _ hfresh1 x).mp hx with rfl | hx'
        · exact ⟨List.mem_cons_self _ _, hphash, hpsz⟩
        · obtain ⟨h1, h2, h3⟩ := hwf1.map_matches x hx'
          have hxne : x.2.lru_node ≠ st1.alloc := fun h =>
            Nat.lt_irrefl _ (h ▸ hwf1.bound _ h1)
          refine ⟨List.mem_cons_of_mem _ h1, ?_, ?_⟩
          · rw [(hfields _ hxne).2.1]
            exact h2
          · rw [(hfields _ hxne).1]
            exact h3
      · intro q hq
        show q < st1.alloc + 2
        rcases List.mem_cons.mp hq with rfl | hq'
        · omega
        · have := hwf1.bound q hq'
          omega

theorem nmRemove_mem_subset {α : Type} : ∀ (m : List (Nat × α)) (k : Nat) (x : Nat × α),
    x ∈ (nmRemove m k).2 → x ∈ m
  | [], _, _, h => by simp [nmRemove] at h
  | (k', v') :: rest, k, x, h => by
      rw [nmRemove] at h
      by_cases hk : k = k'
      · rw [if_pos hk] at h
        exact List.mem_cons_of_mem _ h
      · rw [if_neg hk] at h
        dsimp only at h
        rcases List.mem_cons.mp h with rfl | h'
        · exact List.mem_cons_self _ _
        · exact List.mem_cons_of_mem _ (nmRemove_mem_subset rest k x h')

theorem nmRemove_keys_subset {α : Type} (m : List (Nat × α)) (k k' : Nat)
    (h : k' ∈ ((nmRemove m k).2).map Prod.fst) : k' ∈ m.map Prod.fst := by
  obtain ⟨x, hx, hx1⟩ := List.mem_map.mp h
  exact List.mem_map.mpr ⟨x, nmRemove_mem_subset m k x hx, hx1⟩

/-- Whatever the eviction loop does — and in particular when it aborts on a
failed write-back — it allocates nothing and only ever removes map entries. -/
theorem insertEvictLoop_frame (f : Nat → Bytes → Bool) (vlen : Nat) :
    ∀ fuel st res st', insertEvictLoop f vlen fuel st = some (res, st') →
      st'.alloc = st.alloc ∧
      (∀ k', k' ∈ st'.map.map Prod.fst → k' ∈ st.map.map Prod.fst) := by
  intro fuel
  induction fuel with
  | zero =>
      intro st res st' h
      rw [insertEvictLoop] at h
      exact absurd h (by simp)
  | succ n ih =>
      intro st res st' h
      rw [insertEvictLoop] at h
      cases hev : st.lru.evict st.mem vlen with
      | none =>
          rw [hev] at h
          injection h with h1
          injection h1 with h2 h3
          subst h3
          exact ⟨rfl, fun k' hk => hk⟩
      | some kb =>
          rw [hev] at h
          dsimp only at h
          cases hget : nmGet st.map kb.1 with
          | none =>
              rw [hget] at h
              exact absurd h (by simp)
          | some entry =>
              rw [hget] at h
              dsimp only at h
              cases hfb : f kb.2 (st.dataMem entry.data) with
              | false =>
                  rw [hfb, if_neg Bool.false_ne_true] at h
                  injection h with h1
                  injection h1 with h2 h3
                  subst h3
                  exact ⟨rfl, fun k' hk => hk⟩
              | true =>
                  rw [hfb, if_pos rfl] at h
                  cases hrm : nmRemove st.map kb.1 with
                  | mk o m2 =>
                      rw [hrm] at h
                      cases o with
                      | none => exact absurd h (by simp)
                      | some e2 =>
                          dsimp only at h
                          obtain ⟨ha, hs⟩ := ih _ _ _ h
                          refine ⟨ha, fun k' hk => ?_⟩
                          have h2 : k' ∈ m2.map Prod.fst := hs k' hk
                          have hm2 : m2 = (nmRemove st.map kb.1).2 := by rw [hrm]
                          exact nmRemove_keys_subset st.map kb.1 k' (hm2 ▸ h2)

/-- Claim C1 (amended): if the write-back callback fails for an eviction
victim, `PersistentCacheInsertion::insert` returns `ExternalError`; no entry
is added (the key being inserted is absent afterwards if it was absent
before) and nothing is allocated, but map entries may already have been
removed for victims whose write-back succeeded earlier in the same call. -/
theorem C1_writeback_error (st : PCache) (k : Nat) (v : Bytes) (b : Nat)
    (f : Nat → Bytes → Bool) (st' : PCache)
    (herr : PCache.insert st k v b f = some (.error .ExternalError, st')) :
    st'.alloc = st.alloc ∧
    (∀ k', k' ∈ st'.map.map Prod.fst → k' ∈ st.map.map Prod.fst) ∧
    (k ∉ st.map.map Prod.fst → k ∉ st'.map.map Prod.fst) := by
  rw [PCache.insert] at herr
  cases hloop : insertEvictLoop f v.length (st.lru.count + 1) st with
  | none =>
      rw [hloop] at herr
      exact absurd herr (by simp)
  | some p =>
      rw [hloop] at herr
      obtain ⟨res, st1⟩ := p
      cases res with
      | true =>
          dsimp only at herr
          exact absurd herr (by simp)
      | false =>
          dsimp only at herr
          injection herr with h1
          injection h1 with h2 h3
          subst h3
          obtain ⟨ha, hs⟩ := insertEvictLoop_frame f v.length _ st false st1 hloop
          exact ⟨ha, hs, fun hk hk' => hk (hs k hk')⟩

/-- Project the state out of an operation's result, defaulting to `d`. -/
def stepOf {α : Type} (o : Option (α × PCache)) (d : PCache) : PCache :=
  match o with
  | some x => x.2
  | none => d

/-- An empty persistent cache over an LRU of capacity 100. -/
def pcEmpty : PCache :=
  { lru := Plru.init 100
    mem := fun _ => ⟨none, none, 0, 0, 0⟩
    map := []
    dataMem := fun _ => []
    alloc := 0
    freed := [] }

def pcC1a : PCache :=
  stepOf (PCache.insert pcEmpty 10 (List.replicate 40 1) 1 (fun _ _ => true)) pcEmpty

def pcC1b : PCache :=
  stepOf (PCache.insert pcC1a 20 (List.replicate 40 2) 2 (fun _ _ => true)) pcC1a

/-- Write-back callback that succeeds only on the baggage of the first
entry. -/
def fC1 : Nat → Bytes → Bool := fun bg _ => decide (bg = 1)

def pcC1err : PCache :=
  stepOf (PCache.insert pcC1b 30 (List.replicate 61 3) 3 fC1) pcC1b

/-- Counterexample to claim C1 as stated: inserting a 61-byte value into a
capacity-100 cache holding two 40-byte entries evicts the oldest entry
(hash 10, written back successfully and removed) and then aborts when the
write-back of the second victim (hash 20) fails — the insertion returns
`ExternalError`, but the state is NOT as it was before the insertion began:
the entry for hash 10 has been removed. -/
theorem C1_counterexample :
    PCache.insert pcC1b 30 (List.replicate 61 3) 3 fC1
      = some (.error .ExternalError, pcC1err) ∧
    pcC1b.map.map Prod.fst = [10, 20] ∧
    pcC1err.map.map Prod.fst = [20] :=
  ⟨rfl, by decide, by decide⟩

theorem C1_witness :
    pcC1err.alloc = pcC1b.alloc ∧
    (∀ k', k' ∈ pcC1err.map.map Prod.fst → k' ∈ pcC1b.map.map Prod.fst) ∧
    (30 ∉ pcC1b.map.map Prod.fst → 30 ∉ pcC1err.map.map Prod.fst) :=
  C1_writeback_error pcC1b 30 (List.replicate 61 3) 3 fC1 pcC1err rfl

theorem nmRemove_some_mem {α : Type} : ∀ (m : List (Nat × α)) (k : Nat) (e : α),
    (nmRemove m k).1 = some e → (k, e) ∈ m
  | [], _, _, h => by simp [nmRemove] at h
  | (k', v') :: rest, k, e, h => by
      rw [nmRemove] at h
      by_cases hk : k = k'
      · rw [if_pos hk] at h
        dsimp only at h
        injection h with h1
        rw [hk, h1]
        exact List.mem_cons_self _ _
      · rw [if_neg hk] at h
        dsimp only at h
        exact List.mem_cons_of_mem _ (nmRemove_some_mem rest k e h)

theorem pcGet_preserves (st : PCache) (k : Nat) (r : Except PMapError Bytes)
    (st' : PCache) (h : PCache.get st k = some (r, st'))
    (hc : PlruConsistent st) : PlruConsistent st' := by
  obtain ⟨chain, hwf⟩ := hc
  cases hget : nmGet st.map k with
  | none =>
      rw [PCache.get, hget] at h
      injection h with h1
      injection h1 with h2 h3
      exact h3 ▸ ⟨chain, hwf⟩
  | some e =>
      have hmem : (k, e) ∈ st.map := nmGet_mem st.map k e hget
      obtain ⟨st2, xs, ys, hch, hEq, _, _, _, _, _, hwf2⟩ :=
        get_spec st chain k e hwf hmem
      rw [hEq] at h
      injection h with h1
      injection h1 with h2 h3
      exact h3 ▸ ⟨_, hwf2⟩

theorem pcRemove_preserves (st : PCache) (k : Nat) (st' : PCache)
    (h : PCache.remove st k = .ok st') (hc : PlruConsistent st) :
    PlruConsistent st' := by
  obtain ⟨chain, hwf⟩ := hc
  cases hrm0 : (nmRemove st.map k).1 with
  | none =>
      rw [PCache.remove] at h
      cases hrm1 : nmRemove st.map k with
      | mk o m2 =>
          rw [hrm1] at h
          rw [hrm1] at hrm0
          dsimp only at hrm0
          subst hrm0
          exact absurd h (by simp)
  | some e =>
      have hmem : (k, e) ∈ st.map := nmRemove_some_mem st.map k e hrm0
      obtain ⟨map', l', mem', xs, ys, hch, hrm, hplru, hsub, hsz, hcnt, hwf'⟩ :=
        remove_entry_wf st chain k e hwf hmem
      rw [PCache.remove, hrm] at h
      dsimp only at h
      rw [hplru] at h
      dsimp only at h
      injection h with h3
      exact h3 ▸ ⟨xs ++ ys, hwf' st.dataMem (e.lru_node :: e.data :: st.freed)⟩

theorem pcInsert_preserves (st : PCache) (k : Nat) (v : Bytes) (bg : Nat)
    (f : Nat → Bytes → Bool) (r : Except PMapError Unit) (st' : PCache)
    (hfresh : k ∉ st.map.map Prod.fst)
    (h : PCache.insert st k v bg f = some (r, st'))
    (hc : PlruConsistent st) : PlruConsistent st' := by
  obtain ⟨chain, hwf⟩ := hc
  obtain ⟨r0, st0, hEq, hc0⟩ := insert_spec_pc st chain k v bg f hwf hfresh
  rw [hEq] at h
  injection h with h1
  injection h1 with h2 h3
  exact h3 ▸ hc0

/-- One public persistent-cache operation: a resolved `get`, a completed
`insert` of a key not already present, or a successful `remove`. -/
inductive CacheStep : PCache → PCache → Prop where
  | get (st : PCache) (k : Nat) (r : Except PMapError Bytes) (st' : PCache) :
      PCache.get st k = some (r, st') → CacheStep st st'
  | insert (st : PCache) (k : Nat) (v : Bytes) (bg : Nat)
      (f : Nat → Bytes → Bool) (r : Except PMapError Unit) (st' : PCache) :
      k ∉ st.map.map Prod.fst → PCache.insert st k v bg f = some (r, st') →
      CacheStep st st'
  | remove (st : PCache) (k : Nat) (st' : PCache) :
      PCache.remove st k = .ok st' → CacheStep st st'

theorem cacheStep_preserves {a b : PCache} (h : CacheStep a b)
    (hc : PlruConsistent a) : PlruConsistent b := by
  cases h with
  | get k r st2 heq => exact pcGet_preserves _ _ _ _ heq hc
  | insert k v bg f r st2 hf heq =>
      exact pcInsert_preserves _ _ _ _ _ _ _ hf heq hc
  | remove k st2 heq => exact pcRemove_preserves _ _ _ heq hc

/-- Claim C3 (amended): after every sequence of public persistent-cache
operations — `get`, completed `insert` of keys not already present, and
successful `remove` — starting from a consistent state, the persistent LRU
and map satisfy the invariant: the doubly linked list is head/tail
consistent, the LRU's `size` equals the sum of the entry sizes on the list,
and map entries and LRU nodes are in bijection.  The clause of the original
claim covering re-insertion of an already-present key is false (see the
dedicated counterexample): the map entry is overwritten but the stale LRU
node stays on the list. -/
theorem C3_invariants (st st' : PCache) (h0 : PlruConsistent st)
    (hs : Relation.ReflTransGen CacheStep st st') : PlruConsistent st' := by
  induction hs with
  | refl => exact h0
  | tail _ hstep ih => exact cacheStep_preserves hstep ih

def pcC3a : PCache :=
  stepOf (PCache.insert pcEmpty 5 [1] 0 (fun _ _ => true)) pcEmpty

def pcC3b : PCache :=
  stepOf (PCache.insert pcC3a 5 [2] 0 (fun _ _ => true)) pcC3a

theorem C3_witness : PlruConsistent pcC3a :=
  C3_invariants pcEmpty pcC3a ⟨[], by constructor <;> trivial⟩
    (Relation.ReflTransGen.single
      (CacheStep.insert pcEmpty 5 [1] 0 (fun _ _ => true) (.ok ()) pcC3a
        (by decide) rfl))

theorem consistent_count_eq (st : PCache) (h : PlruConsistent st) :
    st.lru.count = st.map.length := by
  obtain ⟨chain, hwf⟩ := h
  have h1 := hwf.hashes_perm.length_eq
  rw [hwf.count_eq]
  simpa [chainHashes] using h1

/-- Counterexample to the re-insertion clause of claim C3: inserting key 5
into a cache that already holds key 5 completes with `Ok`, but the resulting
state has two LRU nodes carrying hash 5 and a single map entry, so no chain
can witness the node/entry bijection (the LRU count is 2 while the map holds
1 entry). -/
theorem C3_counterexample :
    PCache.insert pcC3a 5 [2] 0 (fun _ _ => true) = some (.ok (), pcC3b) ∧
    ¬ PlruConsistent pcC3b := by
  refine ⟨rfl, fun h => ?_⟩
  have hc := consistent_count_eq pcC3b h
  revert hc
  decide

/-- Claim C10: for a key with no map entry, `PersistentCache::get` returns
`DoesNotExist` and the whole cache state is returned unchanged; for a present
key it returns the stored bytes, touches only that entry's LRU node to the
head (the other nodes keep their relative order), and leaves the map, data,
allocator and free list unchanged, preserving the invariant. -/
theorem C10_get_miss_hit (st : PCache) (chain : List Nat) (k : Nat)
    (hwf : PlruWF st chain) :
    (nmGet st.map k = none →
      PCache.get st k = some (.error .DoesNotExist, st)) ∧
    (∀ e, (k, e) ∈ st.map →
      ∃ st' xs ys, chain = xs ++ e.lru_node :: ys ∧
        PCache.get st k = some (.ok (st.dataMem e.data), st') ∧
        st'.map = st.map ∧ st'.dataMem = st.dataMem ∧ st'.alloc = st.alloc ∧
        st'.freed = st.freed ∧ st'.lru.head = some e.lru_node ∧
        PlruWF st' (e.lru_node :: (xs ++ ys))) := by
  constructor
  · intro hmiss
    rw [PCache.get, hmiss]
  · intro e hmem
    exact get_spec st chain k e hwf hmem

/-- A concrete one-entry persistent cache used to instantiate the
`get` specification. -/
def pcC10 : PCache :=
  { lru := { head := some 0, tail := some 0, capacity := 100, count := 1, size := 3 }
    mem := fun q => if q = 0 then ⟨none, none, 3, 42, 7⟩ else ⟨none, none, 0, 0, 0⟩
    map := [(42, ⟨3, 0, 1⟩)]
    dataMem := fun q => if q = 1 then [8, 9, 10] else []
    alloc := 2
    freed := [] }

theorem C10_witness :
    PCache.get pcC10 9 = some (.error .DoesNotExist, pcC10) :=
  (C10_get_miss_hit pcC10 [0] 9 (by constructor <;> trivial)).1 rfl

/-! ## Migration: the demotion phase of the default `MigrationPolicy::migrate` -/

/-- Modelled from the spec: `StorageInfo` — per-tier fullness counters in
blocks (`database::StorageInfo` is outside the vendored sources). -/
structure StorageInfo where
  free : Nat
  total : Nat
deriving DecidableEq, Repr

/-- Modelled from the spec: `StorageInfo::percent_full`, the derived fill
fraction `(total - free) / total` in [0, 1]; the `f32` arithmetic is modelled
exactly over `ℚ`, and a zero-total tier (NaN in `f32`) is given fraction 0
and excluded by hypothesis where it matters. -/
def StorageInfo.percent_full (s : StorageInfo) : ℚ :=
  if s.total = 0 then 0 else ((s.total : ℚ) - (s.free : ℚ)) / (s.total : ℚ)

/-- `val.clamp(0.0, 1.0)` applied to a migration threshold. -/
def clamp01 (x : ℚ) : ℚ := max 0 (min 1 x)

/-- `threshold[i]` after the clamping `collect` at the top of `migrate`. -/
def thresholdAt (threshold : List ℚ) (i : Nat) : ℚ :=
  (threshold.map clamp01).getD i 0

/-- The demotion phase of the default `MigrationPolicy::migrate`: over
`tuple_windows` of the re-queried `(tier, info)` list, each pair passing the
fullness filter produces a `demote(high_tier, desired)` request with
`desired = Block((total_high as f32 * (1.0 - threshold_high)) as u64) -
free_high`; the truncating `as u64` cast is the rational floor and the `u64`
subtraction is the truncated one (shown not to underflow below). -/
def demoteRequests (threshold : List ℚ) (infos : List (Nat × StorageInfo)) :
    List (Nat × Nat) :=
  ((infos.zip infos.tail).filter (fun p =>
      decide (p.1.2.percent_full > thresholdAt threshold p.1.1) &&
      decide (p.2.2.percent_full < thresholdAt threshold p.2.1))).map
    (fun p => (p.1.1,
      (⌊(p.1.2.total : ℚ) * (1 - thresholdAt threshold p.1.1)⌋).toNat
        - p.1.2.free))

theorem clamp01_nonneg (x : ℚ) : 0 ≤ clamp01 x := le_max_left _ _

theorem thresholdAt_nonneg : ∀ (threshold : List ℚ) (i : Nat),
    0 ≤ thresholdAt threshold i
  | [], _ => le_refl 0
  | _ :: _, 0 => le_max_left _ _
  | _ :: rest, (i + 1) => thresholdAt_nonneg rest i

theorem free_le_floor (s : StorageInfo) (t : ℚ)
    (hnz : 0 < s.total) (hgt : s.percent_full > t) :
    s.free ≤ (⌊(s.total : ℚ) * (1 - t)⌋).toNat := by
  have htot : (0 : ℚ) < (s.total : ℚ) := by exact_mod_cast hnz
  have hne : s.total ≠ 0 := Nat.pos_iff_ne_zero.mp hnz
  rw [StorageInfo.percent_full, if_neg hne] at hgt
  have h1 : t * (s.total : ℚ) < (s.total : ℚ) - (s.free : ℚ) :=
    (lt_div_iff₀ htot).mp hgt
  have h2 : (s.free : ℚ) < (s.total : ℚ) * (1 - t) := by nlinarith [h1]
  have h3 : (s.free : ℤ) ≤ ⌊(s.total : ℚ) * (1 - t)⌋ := by
    rw [Int.le_floor]
    exact_mod_cast le_of_lt h2
  have h4 := Int.toNat_le_toNat h3
  simpa using h4

/-- Claim C8: in the demotion phase of a migration iteration, `demote` is
requested for an adjacent tier pair iff the higher tier's `percent_full`
strictly exceeds its clamped threshold and the lower tier's is strictly
below its own; the requested amount is
`⌊total_high · (1 - threshold_high)⌋ - free_high` blocks, and under the
guard the `u64` subtraction cannot underflow. -/
theorem C8_demote_spec (threshold : List ℚ) (infos : List (Nat × StorageInfo))
    (hnz : ∀ x ∈ infos, 0 < x.2.total) (hi : Nat) (amt : Nat) :
    (hi, amt) ∈ demoteRequests threshold infos ↔
      ∃ hinfo lo linfo, ((hi, hinfo), (lo, linfo)) ∈ infos.zip infos.tail ∧
        hinfo.percent_full > thresholdAt threshold hi ∧
        linfo.percent_full < thresholdAt threshold lo ∧
        hinfo.free ≤ (⌊(hinfo.total : ℚ) * (1 - thresholdAt threshold hi)⌋).toNat ∧
        amt = (⌊(hinfo.total : ℚ) * (1 - thresholdAt threshold hi)⌋).toNat
          - hinfo.free := by
  unfold demoteRequests
  constructor
  · intro hm
    obtain ⟨p, hp, hpe⟩ := List.mem_map.mp hm
    obtain ⟨hz, hcond⟩ := List.mem_filter.mp hp
    obtain ⟨⟨h, hinfo⟩, ⟨lo, linfo⟩⟩ := p
    rw [Bool.and_eq_true, decide_eq_true_eq, decide_eq_true_eq] at hcond
    dsimp only at hpe hcond
    injection hpe with he1 he2
    subst he1
    subst he2
    have hmemhi : (h, hinfo) ∈ infos := (List.of_mem_zip hz).1
    exact ⟨hinfo, lo, linfo, hz, hcond.1, hcond.2,
      free_le_floor hinfo _ (hnz _ hmemhi) hcond.1, rfl⟩
  · rintro ⟨hinfo, lo, linfo, hz, h1, h2, hfree, hamt⟩
    apply List.mem_map.mpr
    refine ⟨((hi, hinfo), (lo, linfo)), List.mem_filter.mpr ⟨hz, ?_⟩, ?_⟩
    · rw [Bool.and_eq_true, decide_eq_true_eq, decide_eq_true_eq]
      exact ⟨h1, h2⟩
    · dsimp only
      rw [hamt]

theorem C8_witness :
    (0, 3) ∈ demoteRequests [1/2, 1/2] [(0, ⟨2, 10⟩), (1, ⟨8, 10⟩)] :=
  (C8_demote_spec [1/2, 1/2] [(0, ⟨2, 10⟩), (1, ⟨8, 10⟩)] (by decide) 0 3).mpr
    ⟨⟨2, 10⟩, 1, ⟨8, 10⟩, by decide,
      by norm_num [StorageInfo.percent_full, thresholdAt, clamp01, min_def, max_def],
      by norm_num [StorageInfo.percent_full, thresholdAt, clamp01, min_def, max_def],
      by norm_num [thresholdAt, clamp01, min_def, max_def],
      by norm_num [thresholdAt, clamp01, min_def, max_def]; rfl⟩
